import Mathlib

/-!
Verification of the text-aufbereiter pipeline (TypeScript sources under `src/`).

The TypeScript string functions are shallow-embedded over `List Char`
(a JS string is modelled as its list of UTF-16-ish code points; all inputs we
reason about stay inside the BMP, where JS code units and characters agree).
JS numbers are modelled as `Nat`/`Int`/`Rat` with explicit rounding where the
source rounds.  Each definition mirrors one function of the repository; the
source file and function are named in the doc comment.
-/

/-- A JavaScript string, modelled as its list of characters. -/
abbrev Str := List Char

set_option maxRecDepth 10000

namespace TA

/-- The newline character. -/
def nlChar : Char := Char.ofNat 10

/-- The carriage-return character. -/
def crChar : Char := Char.ofNat 13

/-- JS whitespace class `\s` (the code points relevant to this code base:
ASCII whitespace plus NBSP and the Unicode spaces;
`String.prototype.trim` strips the same set). -/
def isJsWs (c : Char) : Bool :=
  c = ' ' || c.toNat = 9 || c.toNat = 10 || c.toNat = 11 || c.toNat = 12 ||
  c.toNat = 13 || c.toNat = 0xa0 || c.toNat = 0x1680 ||
  (0x2000 ≤ c.toNat && c.toNat ≤ 0x200a) ||
  c.toNat = 0x2028 || c.toNat = 0x2029 || c.toNat = 0x202f ||
  c.toNat = 0x205f || c.toNat = 0x3000 || c.toNat = 0xfeff

/-- JS digit class `\d`. -/
def isDigitCh (c : Char) : Bool := '0' ≤ c && c ≤ '9'

/-- JS word class `\w` = `[A-Za-z0-9_]` (umlauts are NOT word characters in a
non-unicode JS regex, which matters for `\b` boundaries). -/
def isWordCh (c : Char) : Bool :=
  ('a' ≤ c && c ≤ 'z') || ('A' ≤ c && c ≤ 'Z') || isDigitCh c || c = '_'

/-- ASCII letters plus the German letters used by the sources. -/
def isGermanLetter (c : Char) : Bool :=
  ('a' ≤ c && c ≤ 'z') || ('A' ≤ c && c ≤ 'Z') ||
  c = 'ä' || c = 'ö' || c = 'ü' || c = 'Ä' || c = 'Ö' || c = 'Ü' || c = 'ß'

/-- Case-insensitive canonicalisation as performed by a JS `i`-flag regex
(`Canonicalize` via `toUpperCase`); we map to lower case, handling the German
letters that occur in the embedded patterns. -/
def lowerCh (c : Char) : Char :=
  if 'A' ≤ c && c ≤ 'Z' then Char.ofNat (c.toNat + 32)
  else if c = 'Ä' then 'ä' else if c = 'Ö' then 'ö' else if c = 'Ü' then 'ü'
  else c

/-- Case-insensitive character comparison. -/
def eqCI (a b : Char) : Bool := lowerCh a = lowerCh b

/-- `pat` occurs at the very start of `s` (literal). -/
def startsWith : Str → Str → Bool
  | _, [] => true
  | [], _ :: _ => false
  | c :: s, p :: ps => c = p && startsWith s ps

/-- `pat` occurs at the very start of `s`, case-insensitively. -/
def startsWithCI : Str → Str → Bool
  | _, [] => true
  | [], _ :: _ => false
  | c :: s, p :: ps => eqCI c p && startsWithCI s ps

/-- Literal substring test (`String.prototype.includes`). -/
def occursIn (s pat : Str) : Bool :=
  match s with
  | [] => startsWith [] pat
  | _ :: rest => startsWith s pat || occursIn rest pat

/-- Case-insensitive substring test. -/
def occursInCI (s pat : Str) : Bool :=
  match s with
  | [] => startsWithCI [] pat
  | _ :: rest => startsWithCI s pat || occursInCI rest pat

/-- JS `String.prototype.trim`. -/
def jsTrim (s : Str) : Str :=
  ((s.dropWhile isJsWs).reverse.dropWhile isJsWs).reverse

/-- JS `String.prototype.substring` for in-range natural indices
(arguments are clamped to the string length and swapped when reversed,
exactly as `substring` does). -/
def jsSubstring (s : Str) (a b : Nat) : Str :=
  let a' := min a s.length
  let b' := min b s.length
  ((s.drop (min a' b')).take (max a' b' - min a' b'))

/-- JS one-argument `String.prototype.substring`. -/
def jsSubstringFrom (s : Str) (a : Nat) : Str := s.drop a

/-- JS `split('\n')`. -/
def splitNl (s : Str) : List Str :=
  match s with
  | [] => [[]]
  | c :: rest =>
    let r := splitNl rest
    if c = nlChar then [] :: r
    else (c :: r.headD []) :: r.tail

/-- JS `Array.prototype.join('\n')`. -/
def joinNl (l : List Str) : Str :=
  match l with
  | [] => []
  | [x] => x
  | x :: xs => x ++ nlChar :: joinNl xs

/-- Decimal digits of a natural number, most significant first. -/
def natStr (n : Nat) : Str :=
  let rec go (fuel n : Nat) (acc : Str) : Str :=
    match fuel with
    | 0 => acc
    | fuel + 1 =>
      let d := Char.ofNat (n % 10 + 48)
      if n < 10 then d :: acc else go fuel (n / 10) (d :: acc)
  go (n + 1) n []

/-! ## Durations

JS numbers are binary64 floats.  Every duration in this code base is rounded
to one decimal place before being used (`Math.round(d * 10) / 10`), printed
without an exponent, and compared against integral thresholds, so we model a
duration exactly as an integer count of tenths of a second.  A spec-level
duration of `d` seconds is the model value `10 * d`. -/

/-- Decimal rendering of a positive number of tenths, as JS
`Number.prototype.toString` renders the corresponding one-decimal value
(`20 ↦ "2"`, `8 ↦ "0.8"`, `8400 ↦ "840"`). -/
def fmtTenths (t : Nat) : Str :=
  if t % 10 = 0 then natStr (t / 10)
  else natStr (t / 10) ++ '.' :: natStr (t % 10)

/-! ## Chunker (`src/services/utils.ts`, `smartSplitText`) -/

/-- Left-to-right replacement of each CRLF pair by LF
(`text.replace(/\r\n/g,'\n')`). -/
def crlfToNl : Str → Str
  | [] => []
  | [c] => [c]
  | a :: b :: rest =>
    if a = crChar && b = nlChar then nlChar :: crlfToNl rest
    else a :: crlfToNl (b :: rest)

/-- Line-ending normalisation `text.replace(/\r\n/g,'\n').replace(/\r/g,'\n')`. -/
def normalizeLineEndings (s : Str) : Str :=
  (crlfToNl s).map (fun c => if c = crChar then nlChar else c)

/-- Greatest index `i ≤ stop` such that `p` holds at `i` (scanning a window for
the last occurrence of a pattern), as an `Option`. -/
def lastIdxSuchThat (p : Nat → Bool) : Nat → Option Nat
  | 0 => if p 0 then some 0 else none
  | i + 1 => if p (i + 1) then some (i + 1) else lastIdxSuchThat p i

/-- `window.lastIndexOf('\n\n')`. -/
def lastIndexOfNlNl (w : Str) : Option Nat :=
  if w.length < 2 then none
  else lastIdxSuchThat
    (fun i => w.getD i ' ' = nlChar && w.getD (i + 1) ' ' = nlChar)
    (w.length - 2)

/-- Index of the last match of `/([.!?])\s+/g` in the window (`matchAll`
yields every position whose character is `.`/`!`/`?` followed by a whitespace
character; matches cannot overlap such positions, so the last match of the
scan is the greatest such index). -/
def lastSentenceIdx (w : Str) : Option Nat :=
  if w.length < 2 then none
  else lastIdxSuchThat
    (fun i => (w.getD i ' ' = '.' || w.getD i ' ' = '!' || w.getD i ' ' = '?')
              && isJsWs (w.getD (i + 1) ' '))
    (w.length - 2)

/-- `window.lastIndexOf(c)` for a single character. -/
def lastIndexOfCh (w : Str) (c : Char) : Option Nat :=
  if w.length = 0 then none
  else lastIdxSuchThat (fun i => w.getD i ' ' = c) (w.length - 1)

/-- The split position chosen by one iteration of the `smartSplitText` loop:
look-back window search with priorities paragraph break > sentence end >
newline > space, then the safety clamp.  (The source computes the look-back
range as `Math.min(2000, targetChunkSize * 0.2)` in binary64 and lets
`substring` truncate; we use the truncated value `n*2/10`.  The concatenation
property proved below does not depend on the window arithmetic.) -/
def computeSplit (t : Str) (cur n : Nat) : Nat :=
  let searchEnd := cur + n
  let lookback := min 2000 (n * 2 / 10)
  let searchStart := max cur (searchEnd - lookback)
  let w := jsSubstring t searchStart searchEnd
  let found : Option Nat :=
    match lastIndexOfNlNl w with
    | some i => some (searchStart + i + 2)
    | none =>
      match lastSentenceIdx w with
      | some i => some (searchStart + i + 1)
      | none =>
        match lastIndexOfCh w nlChar with
        | some i => some (searchStart + i + 1)
        | none =>
          match lastIndexOfCh w ' ' with
          | some i => some (searchStart + i + 1)
          | none => none
  let splitPos := match found with
    | some i => i
    | none => cur + n
  if splitPos ≤ cur then cur + n else splitPos

/-- The chunking loop of `smartSplitText`; `fuel` bounds the number of
iterations (for `n ≥ 1` every step advances, so `t.length + 1` suffices;
for `n = 0` the JS loop does not terminate). -/
def chunksGo (t : Str) (n : Nat) : Nat → Nat → List Str
  | 0, _ => []
  | fuel + 1, cur =>
    if t.length ≤ cur then []
    else if t.length - cur ≤ n then [jsSubstringFrom t cur]
    else
      let sp := computeSplit t cur n
      jsSubstring t cur sp :: chunksGo t n fuel sp

/-- `smartSplitText` (`src/services/utils.ts` lines 2–82). -/
def smartSplitText (text : Str) (targetChunkSize : Nat) : List Str :=
  if text = [] then []
  else
    let nt := normalizeLineEndings text
    chunksGo nt targetChunkSize (nt.length + 1) 0

/-- Concatenation of the produced chunks. -/
def concatChunks (l : List Str) : Str := l.flatten

/-! ## Pause injector (`src/services/pauseInjector.ts`) -/

/-- `createPauseTag` (lines 17–21): `Math.max(0.1, Math.round(duration*10)/10)`
in tenths is `max 1 durationTenths`, rendered as `[PAUSE <n>s]`. -/
def createPauseTag (durationTenths : Int) : Str :=
  ('[' :: ('P' :: 'A' :: 'U' :: 'S' :: 'E' :: ' ' :: []))
    ++ fmtTenths (max 1 durationTenths).toNat ++ ('s' :: (']' :: []))

/-- Match of the regex `\[PAUSE\s+[\d.]+s\]/i` at the head of `s`
(`[PAUSE` case-insensitively, one or more whitespace, one or more characters
from `[\d.]`, then `s]`; all quantifiers are greedy and the follow sets are
disjoint, so greedy scanning is exact). -/
def pauseTagAtHead (s : Str) : Bool :=
  if startsWithCI s ('[' :: 'P' :: 'A' :: 'U' :: 'S' :: 'E' :: []) then
    let r := s.drop 6
    let ws := r.takeWhile isJsWs
    if ws.isEmpty then false
    else
      let r2 := r.drop ws.length
      let ds := r2.takeWhile (fun c => isDigitCh c || c = '.')
      if ds.isEmpty then false
      else startsWithCI (r2.drop ds.length) ('s' :: (']' :: []))
  else false

/-- The regex `\[PAUSE\s+[\d.]+s\]/i` matches somewhere in `s`. -/
def containsPauseTag : Str → Bool
  | [] => false
  | c :: r => pauseTagAtHead (c :: r) || containsPauseTag r

/-- `hasExistingPauseTag` (lines 32–39): search a ±`radius` window around
`position` for a pause tag.  `Math.max(0, position - searchRadius)` is
truncated subtraction on `Nat`. -/
def hasExistingPauseTag (text : Str) (position : Nat) (radius : Nat) :
    Bool :=
  let start := position - radius
  let stop := min text.length (position + radius)
  containsPauseTag (jsSubstring text start stop)

/-- `PauseConfiguration` (from `src/types.ts`), durations in tenths. -/
structure PauseConfiguration where
  pauseAfterParagraph : Bool
  pauseAfterParagraphDuration : Int
  pauseAfterSentence : Bool
  pauseAfterSentenceDuration : Int
deriving DecidableEq

/-- Greatest index `j` with `1 ≤ j < run.length` and `run[j] = '\n'`. -/
def lastNlIdx (run : Str) : Option Nat :=
  if run.length < 2 then none
  else lastIdxSuchThat (fun i => decide (1 ≤ i) && run.getD i ' ' = nlChar)
    (run.length - 1)

/-- Length of the match of `(\n\s*\n+)` at the head of `tail`, if any.
The greedy match starts at a newline and extends to just past the last
newline of the maximal whitespace run beginning there (it exists iff that
run contains a second newline). -/
def paraMatchLenAt (tail : Str) : Option Nat :=
  match tail with
  | [] => none
  | c :: _ =>
    if c = nlChar then
      let run := tail.takeWhile isJsWs
      match lastNlIdx run with
      | some j => some (j + 1)
      | none => none
    else none

theorem lastIdxSuchThat_spec (p : Nat → Bool) :
    ∀ m k, lastIdxSuchThat p m = some k → p k = true := by
  intro m
  induction m with
  | zero =>
    intro k hk
    unfold lastIdxSuchThat at hk
    split at hk
    · cases hk; assumption
    · simp at hk
  | succ m ih =>
    intro k hk
    unfold lastIdxSuchThat at hk
    split at hk
    · cases hk; assumption
    · exact ih k hk

theorem lastNlIdx_ge_one {run : Str} {j : Nat} (h : lastNlIdx run = some j) :
    1 ≤ j := by
  unfold lastNlIdx at h
  split at h
  · simp at h
  · have := lastIdxSuchThat_spec _ _ _ h
    simp only [Bool.and_eq_true, decide_eq_true_eq] at this
    exact this.1

theorem paraMatchLenAt_ge_two {tail : Str} {len : Nat}
    (h : paraMatchLenAt tail = some len) : 2 ≤ len := by
  unfold paraMatchLenAt at h
  match tail with
  | [] => simp at h
  | c :: r =>
    simp only at h
    split at h
    · cases hidx : lastNlIdx ((c :: r).takeWhile isJsWs) with
      | none => rw [hidx] at h; simp at h
      | some j =>
        rw [hidx] at h
        simp only [Option.some.injEq] at h
        have := lastNlIdx_ge_one hidx
        omega
    · simp at h

/-- The scan loop of `injectParagraphPauses` (lines 80–111).  `full` is the
unmodified input (the duplicate guard searches it), `tail = full.drop pos`. -/
def injectParaGo (full : Str) (d : Int) : Nat → (tail : Str) → (pos : Nat) → Str
  | 0, tail, _ => tail
  | _ + 1, [], _ => []
  | fuel + 1, c :: rest, pos =>
    match paraMatchLenAt (c :: rest) with
    | some len =>
      let matchEnd := pos + len
      let piece := (c :: rest).take len
      if hasExistingPauseTag full matchEnd 20 then
        piece ++ injectParaGo full d fuel ((c :: rest).drop len) matchEnd
      else
        piece ++ (' ' :: createPauseTag d)
          ++ injectParaGo full d fuel ((c :: rest).drop len) matchEnd
    | none => c :: injectParaGo full d fuel rest (pos + 1)

/-- `injectParagraphPauses` (lines 80–111); the scan is fuel-bounded, and a
match consumes at least two characters (`paraMatchLenAt_ge_two`), so
`text.length + 1` fuel covers the whole input. -/
def injectParagraphPauses (text : Str) (durationTenths : Int) : Str :=
  injectParaGo text durationTenths (text.length + 1) text 0

/-- The abbreviation list of `injectSentencePauses` (lines 129–135). -/
def sentenceAbbreviations : List Str :=
  [ "Dr".toList, "Prof".toList, "Jr".toList, "Sr".toList, "Ph.D".toList,
    "M.D".toList, "B.Sc".toList, "M.Sc".toList,
    "z.B".toList, "d.h".toList, "u.a".toList, "u.U".toList, "usw".toList,
    "etc".toList, "ca".toList, "bzw".toList,
    "vgl".toList, "Abb".toList, "Nr".toList, "Kap".toList, "S".toList,
    "St".toList, "Str".toList,
    "Mr".toList, "Mrs".toList, "Ms".toList, "Co".toList, "Inc".toList,
    "Ltd".toList, "Corp".toList ]

/-- Case-insensitive suffix test. -/
def endsWithCI (s pat : Str) : Bool :=
  startsWithCI s.reverse pat.reverse

/-- The per-abbreviation test `new RegExp('\\b' + abbr + '$', 'i')
.test(beforePunctuation + punctuation)`: the string must end with the
abbreviation (case-insensitively; its dots are escaped and match literally)
with a `\b` boundary before it (every abbreviation starts with a word
character, so the boundary requires the preceding character to be absent or a
non-word character). -/
def testAbbrevEnd (s abbr : Str) : Bool :=
  abbr.length ≤ s.length && endsWithCI s abbr &&
    (let k := s.length - abbr.length
     decide (k = 0) || ! isWordCh (s.getD (k - 1) ' '))

/-- The negative lookahead `(?!\n\s*\n)`: tests whether `\n\s*\n` matches at
the head of `s` (a newline, then optional whitespace, then a newline — i.e.
the maximal whitespace run after the first newline contains another one). -/
def paraBreakAhead (s : Str) : Bool :=
  match s with
  | [] => false
  | c :: r => c = nlChar && (r.takeWhile isJsWs).contains nlChar

/-- Match of `([.!?])(\s+)(?!\n\s*\n)` at the head of `tail`: a sentence
punctuation character followed by a maximal nonempty whitespace run (the
greedy `\s+` always satisfies the lookahead at its maximal extent, since the
next character is not whitespace; the check is kept for fidelity).  Returns
the length of the whitespace run. -/
def sentenceMatchLenAt (tail : Str) : Option Nat :=
  match tail with
  | [] => none
  | c :: r =>
    if c = '.' || c = '!' || c = '?' then
      let ws := r.takeWhile isJsWs
      if ws.isEmpty then none
      else if paraBreakAhead (r.drop ws.length) then none
      else some ws.length
    else none

theorem sentenceMatchLenAt_pos {tail : Str} {len : Nat}
    (h : sentenceMatchLenAt tail = some len) : 1 ≤ len := by
  unfold sentenceMatchLenAt at h
  match tail with
  | [] => simp at h
  | c :: r =>
    simp only at h
    split at h
    · by_cases hws : (r.takeWhile isJsWs).isEmpty
      · rw [if_pos hws] at h; simp at h
      · rw [if_neg hws] at h
        split at h
        · simp at h
        · simp only [Option.some.injEq] at h
          subst h
          cases hempty : r.takeWhile isJsWs with
          | nil => rw [hempty] at hws; simp at hws
          | cons a l => simp
    · simp at h

/-- The scan loop of `injectSentencePauses` (lines 125–186). -/
def injectSentGo (full : Str) (d : Int) : Nat → (tail : Str) → (pos : Nat) → Str
  | 0, tail, _ => tail
  | _ + 1, [], _ => []
  | fuel + 1, c :: rest, pos =>
    match sentenceMatchLenAt (c :: rest) with
    | some wsLen =>
      let matchEnd := pos + 1 + wsLen
      let ws := rest.take wsLen
      let beforePunct := jsSubstring full (pos - 10) pos
      let isAbbreviation :=
        sentenceAbbreviations.any (fun a => testAbbrevEnd (beforePunct ++ [c]) a)
      let piece := c :: ws
      if isAbbreviation then
        piece ++ injectSentGo full d fuel (rest.drop wsLen) matchEnd
      else if hasExistingPauseTag full matchEnd 20 then
        piece ++ injectSentGo full d fuel (rest.drop wsLen) matchEnd
      else
        (c :: ws) ++ createPauseTag d ++ (' ' :: [])
          ++ injectSentGo full d fuel (rest.drop wsLen) matchEnd
    | none => c :: injectSentGo full d fuel rest (pos + 1)

/-- `injectSentencePauses` (lines 125–186); fuel-bounded scan, each step
consuming at least one character. -/
def injectSentencePauses (text : Str) (durationTenths : Int) : Str :=
  injectSentGo text durationTenths (text.length + 1) text 0

/-- `injectPauses` (lines 52–68): paragraph pass first, then sentence pass. -/
def injectPauses (text : Str) (config : PauseConfiguration) : Str :=
  if text = [] then text
  else
    let r1 :=
      if config.pauseAfterParagraph && config.pauseAfterParagraphDuration > 0
      then injectParagraphPauses text config.pauseAfterParagraphDuration
      else text
    if config.pauseAfterSentence && config.pauseAfterSentenceDuration > 0
    then injectSentencePauses r1 config.pauseAfterSentenceDuration
    else r1

/-! ## Meditation scanner (enhanced v2 module, `src/unnamed/part_004`;
it supersedes `src/services/meditationScanner.ts`, adding
`extractDurationFromText` and the extended pattern families) -/

/-- Numeric value of a digit run. -/
def digitsVal (ds : Str) : Nat := ds.foldl (fun a c => a * 10 + (c.toNat - 48)) 0

/-- `Math.round(a / b)` for positive rationals given as `a / b`
(JS rounds half away from zero; all values here are non-negative). -/
def roundHalfUpDiv (a b : Nat) : Nat := (2 * a + b) / (2 * b)

/-- Consume the optional `(?:reale?\s+)?` group: the candidate remainders the
regex engine can continue from (with the group, when `reale`/`real` plus
whitespace is present, and without it). -/
def afterRealeOpt (s : Str) : List Str :=
  let withGroup : Option Str :=
    if startsWith s ("reale".toList) then
      let r := s.drop 5
      let ws := r.takeWhile isJsWs
      if ws.isEmpty then none else some (r.drop ws.length)
    else if startsWith s ("real".toList) then
      let r := s.drop 4
      let ws := r.takeWhile isJsWs
      if ws.isEmpty then none else some (r.drop ws.length)
    else none
  match withGroup with
  | some r => [r, s]
  | none => [s]

/-- Unit alternation `(?:minuten?|min\.?)` as a prefix test on the lowercased
text: every alternative begins with `min`, and nothing further is required
after the final optional characters, so the test is a `min` prefix. -/
def isMinUnit (s : Str) : Bool := startsWith s ("min".toList)

/-- Unit alternation `(?:sekunden?|sek\.?|s\b)`. -/
def isSekUnit (s : Str) : Bool :=
  startsWith s ("sek".toList) ||
  (match s with
   | c :: r => c = 's' && (match r with | [] => true | d :: _ => ! isWordCh d)
   | [] => false)

/-- Unit alternation `(?:stunden?|std\.?|h\b)`. -/
def isStdUnit (s : Str) : Bool :=
  startsWith s ("stunde".toList) || startsWith s ("std".toList) ||
  (match s with
   | c :: r => c = 'h' && (match r with | [] => true | d :: _ => ! isWordCh d)
   | [] => false)

/-- Whitespace then the optional `reale` group then the unit, i.e. the part of
the numeric patterns after the captured number: `\s*(?:reale?\s+)?<unit>`. -/
def unitAfter (unitTest : Str → Bool) (r : Str) : Bool :=
  let r' := r.drop (r.takeWhile isJsWs).length
  (afterRealeOpt r').any unitTest

/-- Match of a numeric time pattern
`(\d+(?:[.,]\d+)?)\s*(?:reale?\s+)?<unit>` at the head of `s`; returns the
captured number as `(numerator, denominator)`.  The greedy capture tries the
decimal form first and falls back to the plain integer (shortening either
digit run leaves a digit at the continuation and can never succeed, so those
backtracking branches are elided). -/
def numericAt (unitTest : Str → Bool) (s : Str) : Option (Nat × Nat) :=
  let d1 := s.takeWhile isDigitCh
  if d1.isEmpty then none
  else
    let r1 := s.drop d1.length
    let fracTry : Option (Nat × Nat) :=
      match r1 with
      | c :: r2 =>
        if c = '.' || c = ',' then
          let d2 := r2.takeWhile isDigitCh
          if d2.isEmpty then none
          else if unitAfter unitTest (r2.drop d2.length) then
            some (digitsVal d1 * 10 ^ d2.length + digitsVal d2, 10 ^ d2.length)
          else none
        else none
      | [] => none
    match fracTry with
    | some v => some v
    | none => if unitAfter unitTest r1 then some (digitsVal d1, 1) else none

/-- Leftmost match of a numeric time pattern (`String.prototype.match`
returns the first match). -/
def firstNumeric (unitTest : Str → Bool) : Str → Option (Nat × Nat)
  | [] => none
  | c :: r =>
    match numericAt unitTest (c :: r) with
    | some v => some v
    | none => firstNumeric unitTest r

/-- One numeric pattern step of the `extractDurationFromText` loop: if the
pattern matches and the captured number is positive, the duration is
`Math.round(num * multiplier)` seconds; a zero capture falls through to the
next pattern. -/
def numericStep (unitTest : Str → Bool) (multiplier : Nat) (lower : Str) :
    Option Nat :=
  match firstNumeric unitTest lower with
  | some (num, den) =>
    if 0 < num then some (roundHalfUpDiv (num * multiplier) den) else none
  | none => none

/-- Word-number pattern `\b(<alts>)\s+(?:reale?\s+)?<unitWord>` at the head
(after a `\b` boundary); `unitWord` is the mandatory part of the trailing
`minuten?`/`sekunden?`. -/
def wordNumAt (alts : List Str) (unitWord : Str) (s : Str) : Bool :=
  alts.any fun a =>
    startsWith s a &&
    (let r := s.drop a.length
     let ws := r.takeWhile isJsWs
     ! ws.isEmpty &&
       (afterRealeOpt (r.drop ws.length)).any fun r' => startsWith r' unitWord)

/-- Scan for a word-number pattern anywhere, honouring the leading `\b`
(every alternative begins with a word character, so the boundary requires the
previous character to be absent or a non-word character). -/
def wordNumScan (alts : List Str) (unitWord : Str) : Bool → Str → Bool
  | _, [] => false
  | prevWord, c :: r =>
    (! prevWord && wordNumAt alts unitWord (c :: r)) ||
      wordNumScan alts unitWord (isWordCh c) r

/-- One word pattern step of the loop (fixed value in seconds). -/
def wordStep (alts : List Str) (unitWord : Str) (value : Nat) (lower : Str) :
    Option Nat :=
  if wordNumScan alts unitWord false lower then some value else none

/-- The fallback `\b(\d+(?:[.,]\d+)?)\b` standalone number at the head;
captured greedily with the decimal part when the trailing boundary allows it
(a decimal part is always followed by the boundary-satisfying `[.,]` when
dropped, and shortening a digit run leaves a digit, which fails `\b`). -/
def standaloneAt (s : Str) : Option (Nat × Nat) :=
  let d1 := s.takeWhile isDigitCh
  if d1.isEmpty then none
  else
    let r1 := s.drop d1.length
    let wordAfter : Str → Bool := fun r =>
      match r with | [] => false | c :: _ => isWordCh c
    match r1 with
    | c :: r2 =>
      if (c = '.' || c = ',') && ! (r2.takeWhile isDigitCh).isEmpty then
        let d2 := r2.takeWhile isDigitCh
        if ! wordAfter (r2.drop d2.length) then
          some (digitsVal d1 * 10 ^ d2.length + digitsVal d2, 10 ^ d2.length)
        else some (digitsVal d1, 1)
      else if ! wordAfter r1 then some (digitsVal d1, 1) else none
    | [] => some (digitsVal d1, 1)

/-- Leftmost standalone number (with its leading `\b`). -/
def firstStandalone : Bool → Str → Option (Nat × Nat)
  | _, [] => none
  | prevWord, c :: r =>
    match if prevWord then none else standaloneAt (c :: r) with
    | some v => some v
    | none => firstStandalone (isWordCh c) r

/-- `extractDurationFromText` (`src/unnamed/part_004` lines 30–96): smart
parsing of time phrases, in seconds; `15` is the default. -/
def extractDurationFromText (lineText : Str) : Nat :=
  if lineText = [] then 15
  else
    let lower := lineText.map lowerCh
    let einAlts := ["eine".toList, "ein".toList, "eins".toList]
    let steps : List (Option Nat) :=
      [ numericStep isMinUnit 60 lower,
        numericStep isSekUnit 1 lower,
        numericStep isStdUnit 3600 lower,
        wordStep einAlts ("minute".toList) 60 lower,
        wordStep ["zwei".toList] ("minute".toList) 120 lower,
        wordStep ["drei".toList] ("minute".toList) 180 lower,
        wordStep ["vier".toList] ("minute".toList) 240 lower,
        wordStep ["fünf".toList] ("minute".toList) 300 lower,
        wordStep ["zehn".toList] ("minute".toList) 600 lower,
        wordStep ["fünfzehn".toList] ("minute".toList) 900 lower,
        wordStep ["zwanzig".toList] ("minute".toList) 1200 lower,
        wordStep ["dreißig".toList] ("minute".toList) 1800 lower,
        wordStep einAlts ("sekunde".toList) 1 lower,
        wordStep ["zwei".toList] ("sekunde".toList) 2 lower,
        wordStep ["drei".toList] ("sekunde".toList) 3 lower,
        wordStep ["fünf".toList] ("sekunde".toList) 5 lower,
        wordStep ["zehn".toList] ("sekunde".toList) 10 lower,
        wordStep ["zwanzig".toList] ("sekunde".toList) 20 lower,
        wordStep ["dreißig".toList] ("sekunde".toList) 30 lower ]
    match steps.findSome? id with
    | some v => v
    | none =>
      match firstStandalone false lower with
      | some (num, den) =>
        if 0 < num && num ≤ 300 * den then roundHalfUpDiv num den else 15
      | none => 15

/-- The directive keywords of the primary pattern. -/
def directiveKeywords : List Str :=
  ["PAUSE".toList, "STILLE".toList, "NACHSPÜREN".toList]

/-- The intensity adjectives `KURZE|LANGE|KLEINE|GROSSE`. -/
def directiveAdjectives : List Str :=
  ["KURZE".toList, "LANGE".toList, "KLEINE".toList, "GROSSE".toList]

/-- Keyword alternation `(PAUSE|STILLE|NACHSPÜREN)\b\s*` at the head of `t`:
returns the keyword as it appears in the text and the remainder after the
greedy `\s*`. -/
def matchKeywordAt (t : Str) : Option (Str × Str) :=
  directiveKeywords.findSome? fun kw =>
    if startsWithCI t kw then
      let after := t.drop kw.length
      if (match after with | [] => true | c :: _ => ! isWordCh c) then
        some (t.take kw.length, after.drop (after.takeWhile isJsWs).length)
      else none
    else none

/-- Primary pattern
`^(?:(KURZE|LANGE|KLEINE|GROSSE)\s+)?(PAUSE|STILLE|NACHSPÜREN)\b\s*(.*)$/i`
on the trimmed line: returns `(adjective, keyword, rest)` with the adjective
possibly empty (the optional group is tried first, per greedy `?`). -/
def primaryMatch (t : Str) : Option (Str × Str × Str) :=
  let withAdj : Option (Str × Str × Str) :=
    directiveAdjectives.findSome? fun adj =>
      if startsWithCI t adj then
        let r := t.drop adj.length
        let ws := r.takeWhile isJsWs
        if ws.isEmpty then none
        else
          match matchKeywordAt (r.drop ws.length) with
          | some (kw, rest) => some (t.take adj.length, kw, rest)
          | none => none
      else none
  match withAdj with
  | some v => some v
  | none => (matchKeywordAt t).map fun p => (([] : Str), p.1, p.2)

/-- Sentence pattern
`^(?:(?:KURZE|LANGE|KLEINE|GROSSE)\s+)?PAUSE\s+(?:für|von)\s+.+$/i` (test
only). -/
def sentencePatternTest (t : Str) : Bool :=
  let core : Str → Bool := fun s =>
    startsWithCI s ("PAUSE".toList) &&
    (let r := s.drop 5
     let ws := r.takeWhile isJsWs
     ! ws.isEmpty &&
       (let r2 := r.drop ws.length
        ["für".toList, "von".toList].any fun w =>
          startsWithCI r2 w &&
            (let r3 := r2.drop w.length
             let ws2 := r3.takeWhile isJsWs
             ! ws2.isEmpty && ! (r3.drop ws2.length).isEmpty)))
  core t ||
    directiveAdjectives.any fun adj =>
      startsWithCI t adj &&
        (let r := t.drop adj.length
         let ws := r.takeWhile isJsWs
         ! ws.isEmpty && core (r.drop ws.length))

/-- `pause\s+(?:für|von|:)\s*.+(?:\)|\]|$)` at the head (the `$` alternative
makes the tail requirement exactly one or more remaining characters). -/
def extendedAt (s : Str) : Bool :=
  startsWithCI s ("pause".toList) &&
  (let r := s.drop 5
   let ws := r.takeWhile isJsWs
   ! ws.isEmpty &&
     (let r2 := r.drop ws.length
      ["für".toList, "von".toList, [':']].any fun w =>
        startsWithCI r2 w && ! (r2.drop w.length).isEmpty))

/-- Extended pattern
`(?:^|\s|\(|\[)pause\s+(?:für|von|:)\s*.+(?:\)|\]|$)/i` anywhere in the
line. -/
def extendedTest (t : Str) : Bool :=
  extendedAt t || go t
where
  go : Str → Bool
    | [] => false
    | c :: r => ((isJsWs c || c = '(' || c = '[') && extendedAt r) || go r

/-- After the keyword of a bracketed stage direction: `[^\)\]]*[\)\]]\s*$`
(the closing bracket must be the first one, and only whitespace may follow
it). -/
def closeThenWs : Str → Bool
  | [] => false
  | c :: r => if c = ')' || c = ']' then r.all isJsWs else closeThenWs r

/-- Stage-direction pattern
`^[\s]*[\(\[]\s*(?:pause|stille|nachspüren)[^\)\]]*[\)\]]\s*$/i`. -/
def stageDirectionTest (t : Str) : Bool :=
  match t.dropWhile isJsWs with
  | [] => false
  | c :: r1 =>
    (c = '(' || c = '[') &&
      (let r2 := r1.dropWhile isJsWs
       ["pause".toList, "stille".toList, "nachspüren".toList].any fun kw =>
         startsWithCI r2 kw && closeThenWs (r2.drop kw.length))

/-- A `DetectedPause` (from `src/types.ts`), durations in tenths of a second.
The source also carries an `id` string built from the clock and a random
suffix; it is an opaque unique label never used by the pause logic and is not
modelled. -/
structure DetectedPause where
  lineNumber : Nat
  originalText : Str
  durationTenths : Int
  instruction : Str
deriving DecidableEq

/-- The en-dash separator used in instruction labels. -/
def enDashSep : Str := ' ' :: '–' :: ' ' :: []

/-- One line of the scan loop of `scanForExplicitPauses`
(`src/unnamed/part_004` lines 131–205): the four pattern families in order
(first match wins), with the suggested duration extracted from the trimmed
line; `i` is the 0-based line index. -/
def scanLine (i : Nat) (line : Str) : Option DetectedPause :=
  let t := jsTrim line
  if t.isEmpty then none
  else
    match primaryMatch t with
    | some (adj, kw, restRaw) =>
      let rest := jsTrim restRaw
      let instr : Str :=
        if ! rest.isEmpty then
          if ! adj.isEmpty then adj ++ ' ' :: kw ++ enDashSep ++ rest
          else kw ++ enDashSep ++ rest
        else
          if ! adj.isEmpty then adj ++ ' ' :: kw else kw
      some ⟨i + 1, line, 10 * extractDurationFromText t, instr⟩
    | none =>
      if sentencePatternTest t || extendedTest t || stageDirectionTest t
      then
        some ⟨i + 1, line, 10 * extractDurationFromText t,
          ('P' :: 'A' :: 'U' :: 'S' :: 'E' :: []) ++ enDashSep ++ t⟩
      else none

/-- `scanForExplicitPauses` (`src/unnamed/part_004` lines 122–209). -/
def scanForExplicitPauses (text : Str) : List DetectedPause :=
  if text = [] then []
  else (splitNl text).enum.filterMap fun p => scanLine p.1 p.2

/-- A line on which the scanner detects a directive (used to state the
empty-scan property): nonempty after trimming and matching one of the four
pattern families. -/
def directiveLine (line : Str) : Bool :=
  let t := jsTrim line
  ! t.isEmpty &&
    ((primaryMatch t).isSome || sentencePatternTest t || extendedTest t ||
      stageDirectionTest t)

/-- `applyMeditationPauses` (`src/unnamed/part_004` lines 230–263): append
`[PAUSE <d>s]` to each line whose 1-based number appears in the pause list
(the `Map` keeps the last entry per line number); the tag formula of lines
252–253 coincides with `createPauseTag`. -/
def applyMeditationPauses (text : Str) (pauses : List DetectedPause) : Str :=
  if text = [] || pauses.isEmpty then text
  else
    let lines := splitNl text
    joinNl <| lines.enum.map fun (i, line) =>
      match pauses.reverse.find? (fun p => p.lineNumber = i + 1) with
      | some p => line ++ ' ' :: createPauseTag p.durationTenths
      | none => line

/-- The zero-pauses warning of `validateMeditationPauses`
(`src/unnamed/part_004` line 276). -/
def noPausesWarning : Str :=
  "Keine Pausen gefunden. Stellen Sie sicher, dass Zeilen mit \"PAUSE\", \"STILLE\" oder \"NACHSPÜREN\" beginnen, oder Muster wie \"Pause für X Minuten\" enthalten.".toList

/-- `validateMeditationPauses` (`src/unnamed/part_004` lines 272–301):
advisory warnings (thresholds 2 s and 1800 s, in tenths). -/
def validateMeditationPauses (pauses : List DetectedPause) : List Str :=
  if pauses.isEmpty then [noPausesWarning]
  else
    let short := pauses.filter fun p => p.durationTenths < 20
    let w1 : List Str :=
      if short.length > 0 then
        [natStr short.length ++
          " Pause(n) sind sehr kurz (< 2s). Für Meditationen empfohlen: 5-30s.".toList]
      else []
    let long := pauses.filter fun p => p.durationTenths > 18000
    let w2 : List Str :=
      if long.length > 0 then
        [natStr long.length ++
          " Pause(n) sind sehr lang (> 30 Min). Bitte überprüfen Sie die Zeitangaben.".toList]
      else []
    w1 ++ w2

/-! ## Stage-direction protection
(`src/services/geminiService.ts`, `protectStageDirections` lines 640–696 and
`restoreStageDirections` lines 702–710) -/

/-- An occurrence of `Minuten?|Sekunden?|Stunden?` (case-insensitively)
starting at some suffix of `s`. -/
def hasTimeUnitIn : Str → Bool
  | [] => false
  | c :: r =>
    startsWithCI (c :: r) ("minute".toList) ||
    startsWithCI (c :: r) ("sekunde".toList) ||
    startsWithCI (c :: r) ("stunde".toList) ||
    hasTimeUnitIn r

/-- The number-word alternatives of the aggressive pattern (no `\b` around
them in the source, so they match as plain substrings). -/
def aggrNumberWords : List Str :=
  ["ein".toList, "zwei".toList, "drei".toList, "vier".toList, "fünf".toList,
   "sechs".toList, "sieben".toList, "acht".toList, "neun".toList,
   "zehn".toList, "elf".toList, "zwölf".toList, "dreizehn".toList,
   "vierzehn".toList, "fünfzehn".toList, "sechzehn".toList,
   "siebzehn".toList, "achtzehn".toList, "neunzehn".toList,
   "zwanzig".toList, "dreißig".toList, "vierzig".toList, "fünfzig".toList]

/-- `(\d+|ein|zwei|…)[\s\S]*?(Minuten?|Sekunden?|Stunden?)` somewhere in `s`:
a number token (for `\d+` a single digit suffices, since the lazy gaps are
arbitrary) followed, at or after its end, by a time unit. -/
def aggrTokenThenUnit : Str → Bool
  | [] => false
  | c :: r =>
    (isDigitCh c && hasTimeUnitIn r) ||
    (aggrNumberWords.any fun w =>
      startsWithCI (c :: r) w && hasTimeUnitIn ((c :: r).drop w.length)) ||
    aggrTokenThenUnit r

/-- The aggressive "Hammer" pattern (v2.4.5, line 656):
`/^\s*Pause\b[\s\S]*?(<number>)[\s\S]*?(<unit>)/i`. -/
def aggressiveTest (t : Str) : Bool :=
  let a := t.dropWhile isJsWs
  startsWithCI a ("pause".toList) &&
    (match a.drop 5 with
     | [] => true
     | c :: _ => ! isWordCh c) &&
    aggrTokenThenUnit (a.drop 5)

/-- The simple pattern (line 659): `/^\s*Pause\s+(?:für|von|:)\s+/i`. -/
def simpleTest (t : Str) : Bool :=
  let a := t.dropWhile isJsWs
  startsWithCI a ("pause".toList) &&
    (let r := a.drop 5
     let ws := r.takeWhile isJsWs
     ! ws.isEmpty &&
       (let r2 := r.drop ws.length
        ["für".toList, "von".toList, [':']].any fun w =>
          startsWithCI r2 w &&
            ! ((r2.drop w.length).takeWhile isJsWs).isEmpty))

/-- The bracket pattern (line 662):
`/[\(\[]\s*(?:pause|stille|nachspüren)[^\)\]]*[\)\]]/i` anywhere in the line
(after the keyword any closing bracket suffices — the first one of the
remainder closes the `[^\)\]]*`). -/
def bracketTest : Str → Bool
  | [] => false
  | c :: r =>
    ((c = '(' || c = '[') &&
      (let r2 := r.dropWhile isJsWs
       ["pause".toList, "stille".toList, "nachspüren".toList].any fun kw =>
         startsWithCI r2 kw &&
           (r2.drop kw.length).any fun d => d = ')' || d = ']')) ||
    bracketTest r

/-- The line classification of `protectStageDirections` (lines 665–678):
nonempty after trimming, and matching any of the four patterns (the primary
pattern agrees with the scanner's `primaryMatch` success). -/
def isProtectedLine (line : Str) : Bool :=
  let t := jsTrim line
  ! t.isEmpty &&
    ((primaryMatch t).isSome || aggressiveTest t || simpleTest t ||
      bracketTest t)

/-- The placeholder prefix `[[PROTECTED_STAGE_DIRECTION_`. -/
def phPrefix : Str := "[[PROTECTED_STAGE_DIRECTION_".toList

/-- `[[PROTECTED_STAGE_DIRECTION_<i>]]`. -/
def placeholder (i : Nat) : Str := phPrefix ++ natStr i ++ (']' :: ']' :: [])

/-- Replace-and-collect loop of `protectStageDirections` (lines 681–693);
`k` is the next placeholder index. -/
def protectGo : List Str → Nat → List Str × List Str
  | [], _ => ([], [])
  | l :: ls, k =>
    if isProtectedLine l then
      let p := protectGo ls (k + 1)
      (placeholder k :: p.1, l :: p.2)
    else
      let p := protectGo ls k
      (l :: p.1, p.2)

/-- `protectStageDirections`: the masked text and the original lines in scan
order. -/
def protectStageDirections (text : Str) : Str × List Str :=
  let p := protectGo (splitNl text) 0
  (joinNl p.1, p.2)

/-- `GetSubstitution` for a string-pattern `String.prototype.replace`: with no
capture groups the active escapes are `$$`, `$&`, ``$` `` and `$'`; anything
else after `$` stays literal. -/
def dollarSubst (matched before after : Str) : Str → Str
  | [] => []
  | c :: r =>
    if c = '$' then
      match r with
      | [] => ['$']
      | d :: r2 =>
        if d = '$' then '$' :: dollarSubst matched before after r2
        else if d = '&' then matched ++ dollarSubst matched before after r2
        else if d = Char.ofNat 96 then before ++ dollarSubst matched before after r2
        else if d = Char.ofNat 39 then after ++ dollarSubst matched before after r2
        else '$' :: dollarSubst matched before after (d :: r2)
    else c :: dollarSubst matched before after r

/-- Scan of `String.prototype.replace` with a string pattern: replace the
first occurrence, applying `GetSubstitution` to the replacement.  `acc` holds
the reversed prefix already scanned. -/
def replFirstGo (pat repl : Str) : (acc : Str) → (s : Str) → Str
  | acc, s =>
    if startsWith s pat then
      acc.reverse ++
        dollarSubst (s.take pat.length) acc.reverse (s.drop pat.length) repl ++
        s.drop pat.length
    else
      match s with
      | [] => acc.reverse
      | c :: r => replFirstGo pat repl (c :: acc) r

/-- JS `s.replace(pat, repl)` for a plain-string `pat`. -/
def jsReplaceFirst (s pat repl : Str) : Str := replFirstGo pat repl [] s

/-- The loop of `restoreStageDirections` (lines 702–710). -/
def restoreGo : Str → Nat → List Str → Str
  | t, _, [] => t
  | t, k, o :: os => restoreGo (jsReplaceFirst t (placeholder k) o) (k + 1) os

/-- `restoreStageDirections`. -/
def restoreStageDirections (text : Str) (originalLines : List Str) : Str :=
  restoreGo text 0 originalLines

/-- The two-character sequences that are active substitution escapes in a
string replacement (`$$`, `$&`, ``$` ``, `$'`). -/
def dollarPairs : List Str :=
  [['$', '$'], ['$', '&'], ['$', Char.ofNat 96], ['$', Char.ofNat 39]]

/-- `s` contains an active `$`-escape sequence. -/
def hasDollarEscape (s : Str) : Bool := dollarPairs.any fun p => occursIn s p

/-! ## Configuration (`src/types.ts`) and the option safety check of
`App.tsx` -/

inductive ChapterStyle | remove | keep
deriving DecidableEq

inductive ListStyle | prose | keep
deriving DecidableEq

inductive HyphenationStyle | join | keep
deriving DecidableEq

inductive ProcessingMode | standard | meditation
deriving DecidableEq

/-- `CleaningOptions` (`src/types.ts`).  The optional boolean fields default
to a falsy `undefined`, modelled as `false`; `applyPhoneticCorrections` is
checked in the source as `!== false`, so `true` here means "not explicitly
disabled".  `aiProvider` and `customInstruction` only shape the delegated
prompt text and are not modelled. -/
structure CleaningOptions where
  chapterStyle : ChapterStyle
  listStyle : ListStyle
  hyphenationStyle : HyphenationStyle
  removeUrls : Bool
  removeEmails : Bool
  removeTableOfContents : Bool
  removeReferences : Bool
  correctTypography : Bool
  applyPhoneticCorrections : Bool
  customReplacements : List (Str × Str)
  processingMode : ProcessingMode
  pauseConfig : Option PauseConfiguration
deriving DecidableEq

/-- The safety check of `handleStartCleaning` (`src/App.tsx` lines 259–265):
force `chapterStyle` to `keep` in meditation mode. -/
def mkSafeOptions (options : CleaningOptions) : CleaningOptions :=
  { options with
    chapterStyle :=
      if options.processingMode = ProcessingMode.meditation then ChapterStyle.keep
      else options.chapterStyle }

/-- `AppState` (`src/types.ts`). -/
inductive AppState | IDLE | EXTRACTING | CONFIGURING | CLEANING | SUCCESS | ERROR
deriving DecidableEq

/-- The part of `AppStateShape` (`src/types.ts`) that the meditation decision
point reads or writes (presentation fields such as progress, file name and
summaries are unchanged by the modelled actions). -/
structure AppModelState where
  appState : AppState
  rawText : Str
  cleanedText : Str
  errorMessage : Str
  detectedPauses : List DetectedPause
  isReviewingPauses : Bool
deriving DecidableEq

/-- The two reducer actions dispatched at the meditation decision point
(`appReducer`, `src/App.tsx` lines 47–48 and 88–94). -/
inductive MeditationAction
  | setError (message : Str)
  | startPauseReview (detectedPauses : List DetectedPause)

/-- `appReducer` restricted to those actions: `SET_ERROR` keeps every field
but `appState` and `errorMessage`; `START_PAUSE_REVIEW` stores the pauses and
enters review. -/
def appReducerMeditation (st : AppModelState) : MeditationAction → AppModelState
  | .setError m => { st with appState := AppState.ERROR, errorMessage := m }
  | .startPauseReview ps =>
    { st with
      detectedPauses := ps
      isReviewingPauses := true
      appState := AppState.CONFIGURING }

/-- The hard-coded message of `App.tsx` line 364. -/
def noPausesErrorMessage : Str :=
  "Keine Pausen gefunden. Im Meditations-Modus müssen Zeilen mit \"PAUSE\" oder \"KURZE/LANGE PAUSE\" beginnen (z.B. \"PAUSE, um tief einzuatmen\" oder \"KURZE PAUSE für drei Atemzüge\").".toList

/-- The meditation branch of `handleStartCleaning` (`src/App.tsx` lines
355–380): scan the sanitized text; report the terminal error when nothing was
detected, otherwise enter the pause-review step. -/
def meditationScanStep (st : AppModelState) (fullySanitizedText : Str) :
    AppModelState :=
  let detectedPauses := scanForExplicitPauses fullySanitizedText
  if detectedPauses.length = 0 then
    appReducerMeditation st (.setError noPausesErrorMessage)
  else
    appReducerMeditation st (.startPauseReview detectedPauses)

/-! ## Offline cleaner (`src/services/geminiService.ts`, `cleanTextOffline`
lines 159–324).  Each numbered pass mirrors one replace of the source; the
generator's final chunked `yield` loop concatenates back to the transformed
text, so the function is modelled as returning that text (the abort signal is
the caller-cancellation case, excluded by the claims). -/

theorem startsWithCI_length {s pat : Str} (h : startsWithCI s pat = true) :
    pat.length ≤ s.length := by
  induction pat generalizing s with
  | nil => simp
  | cons p ps ih =>
    cases s with
    | nil => simp [startsWithCI] at h
    | cons c r =>
      simp only [startsWithCI, Bool.and_eq_true] at h
      have := ih h.2
      simp only [List.length_cons]
      omega

/-- Global case-insensitive literal replace
(`new RegExp(escapedSearch, 'gi')` in `applyCustomReplacements`,
`src/services/utils.ts` lines 243–264); `full`/`pos` carry the subject and
the current offset for the `$`-substitution context. -/
def replAllCIGo (pat repl full : Str) : Nat → Nat → Str → Str
  | 0, _, s => s
  | fuel + 1, pos, s =>
    if startsWithCI s pat ∧ ¬ pat.isEmpty then
      dollarSubst (s.take pat.length) (full.take pos) (s.drop pat.length) repl
        ++ replAllCIGo pat repl full fuel (pos + pat.length) (s.drop pat.length)
    else
      match s with
      | [] => []
      | c :: r => c :: replAllCIGo pat repl full fuel (pos + 1) r

/-- `applyCustomReplacements`: literal, global, case-insensitive; empty
search strings are skipped. -/
def applyCustomReplacements (text : Str)
    (replacements : List (Str × Str)) : Str :=
  if text = [] || replacements.isEmpty then text
  else
    replacements.foldl
      (fun result sr =>
        if sr.1.isEmpty then result
        else replAllCIGo sr.1 sr.2 result (result.length + 1) 0 result)
      text

/-- One abbreviation rule of `COMMON_ABBREVIATIONS`
(`src/services/utils.ts` lines 271–339): the literal after the leading `\b`
(dots escaped), whether the pattern ends in `\s` (only the `s.` rule),
whether the rule carries the `i` flag, and the replacement. -/
structure AbbrevRule where
  lit : Str
  trailWs : Bool
  ci : Bool
  repl : Str

/-- Literal match for one rule at the head of `s` (case-sensitively unless
the rule has the `i` flag); returns the number of characters consumed.  The
empty-literal guard only excludes a degenerate pattern no rule of the table
has. -/
def abbrevMatchLen (rule : AbbrevRule) (s : Str) : Option Nat :=
  if rule.lit.isEmpty then none
  else
    let litOk :=
      if rule.ci then startsWithCI s rule.lit else startsWith s rule.lit
    if litOk then
      if rule.trailWs then
        match s.drop rule.lit.length with
        | c :: _ => if isJsWs c then some (rule.lit.length + 1) else none
        | [] => none
      else some rule.lit.length
    else none

theorem abbrevMatchLen_pos {rule : AbbrevRule} {s : Str} {len : Nat}
    (h : abbrevMatchLen rule s = some len) : 1 ≤ len := by
  unfold abbrevMatchLen at h
  by_cases hlit : rule.lit.isEmpty
  · rw [if_pos hlit] at h
    simp at h
  · rw [if_neg hlit] at h
    have hne : 1 ≤ rule.lit.length := by
      cases hl : rule.lit with
      | nil => rw [hl] at hlit; simp at hlit
      | cons a b => simp
    dsimp only at h
    repeat' split at h
    all_goals simp only [Option.some.injEq, reduceCtorEq] at h
    all_goals omega

/-- Global replace for one abbreviation rule, honouring the leading `\b`
(all rule literals begin with a word character); the boundary after a match
is judged from the last matched character, and the matched whitespace of the
`s.` rule is replaced together with the literal. -/
def abbrevReplGo (rule : AbbrevRule) : Nat → Bool → Str → Str
  | 0, _, s => s
  | _ + 1, _, [] => []
  | fuel + 1, prevWord, c :: r =>
    match if prevWord then none else abbrevMatchLen rule (c :: r) with
    | some len =>
      rule.repl ++
        abbrevReplGo rule fuel (isWordCh (((c :: r).take len).getLastD ' '))
          ((c :: r).drop len)
    | none => c :: abbrevReplGo rule fuel (isWordCh c) r

/-- The `getLast` default is never used on a successful match; helper to keep
the recursion readable. -/
def abbrevReplace (rule : AbbrevRule) (text : Str) : Str :=
  abbrevReplGo rule (text.length + 1) false text

/-- `COMMON_ABBREVIATIONS` (`src/services/utils.ts` lines 271–339), in source
order. -/
def COMMON_ABBREVIATIONS : List AbbrevRule :=
  [ ⟨"z.B.".toList, false, false, "zum Beispiel".toList⟩,
    ⟨"d.h.".toList, false, false, "das heißt".toList⟩,
    ⟨"ggf.".toList, false, false, "gegebenenfalls".toList⟩,
    ⟨"bzw.".toList, false, false, "beziehungsweise".toList⟩,
    ⟨"etc.".toList, false, false, "et cetera".toList⟩,
    ⟨"ca.".toList, false, false, "circa".toList⟩,
    ⟨"u.a.".toList, false, false, "unter anderem".toList⟩,
    ⟨"u.U.".toList, false, false, "unter Umständen".toList⟩,
    ⟨"o.Ä.".toList, false, true, "oder Ähnliches".toList⟩,
    ⟨"usw.".toList, false, false, "und so weiter".toList⟩,
    ⟨"i.d.R.".toList, false, false, "in der Regel".toList⟩,
    ⟨"i.d.S.".toList, false, false, "in diesem Sinne".toList⟩,
    ⟨"i.S.v.".toList, false, false, "im Sinne von".toList⟩,
    ⟨"z.T.".toList, false, false, "zum Teil".toList⟩,
    ⟨"v.a.".toList, false, false, "vor allem".toList⟩,
    ⟨"sog.".toList, false, false, "sogenannt".toList⟩,
    ⟨"bzgl.".toList, false, false, "bezüglich".toList⟩,
    ⟨"evtl.".toList, false, false, "eventuell".toList⟩,
    ⟨"inkl.".toList, false, false, "inklusive".toList⟩,
    ⟨"exkl.".toList, false, false, "exklusive".toList⟩,
    ⟨"Nr.".toList, false, false, "Nummer".toList⟩,
    ⟨"Art.".toList, false, false, "Artikel".toList⟩,
    ⟨"Abs.".toList, false, false, "Absatz".toList⟩,
    ⟨"Kap.".toList, false, true, "Kapitel".toList⟩,
    ⟨"Abb.".toList, false, false, "Abbildung".toList⟩,
    ⟨"vgl.".toList, false, true, "vergleiche".toList⟩,
    ⟨"s.".toList, true, false, "siehe ".toList⟩,
    ⟨"ff.".toList, false, false, "fortfolgende".toList⟩,
    ⟨"Dr.".toList, false, false, "Doktor".toList⟩,
    ⟨"Prof.".toList, false, false, "Professor".toList⟩,
    ⟨"Hr.".toList, false, false, "Herr".toList⟩,
    ⟨"Fr.".toList, false, false, "Frau".toList⟩,
    ⟨"min.".toList, false, false, "Minute".toList⟩,
    ⟨"max.".toList, false, false, "maximal".toList⟩,
    ⟨"Std.".toList, false, false, "Stunde".toList⟩,
    ⟨"tgl.".toList, false, false, "täglich".toList⟩,
    ⟨"mtl.".toList, false, false, "monatlich".toList⟩,
    ⟨"zzgl.".toList, false, false, "zuzüglich".toList⟩,
    ⟨"abzgl.".toList, false, false, "abzüglich".toList⟩,
    ⟨"gem.".toList, false, false, "gemäß".toList⟩,
    ⟨"lt.".toList, false, false, "laut".toList⟩,
    ⟨"b.A.".toList, false, false, "bei Bedarf".toList⟩,
    ⟨"o.g.".toList, false, false, "oben genannt".toList⟩,
    ⟨"s.u.".toList, false, false, "siehe unten".toList⟩,
    ⟨"s.o.".toList, false, false, "siehe oben".toList⟩,
    ⟨"dgl.".toList, false, false, "dergleichen".toList⟩,
    ⟨"o.J.".toList, false, false, "ohne Jahr".toList⟩,
    ⟨"n.Chr.".toList, false, false, "nach Christus".toList⟩,
    ⟨"v.Chr.".toList, false, false, "vor Christus".toList⟩,
    ⟨"bspw.".toList, false, false, "beispielsweise".toList⟩,
    ⟨"Fa.".toList, false, false, "Firma".toList⟩,
    ⟨"Str.".toList, false, false, "Straße".toList⟩,
    ⟨"Tel.".toList, false, false, "Telefon".toList⟩,
    ⟨"Stk.".toList, false, false, "Stück".toList⟩ ]

/-- `expandAbbreviations` (`src/services/geminiService.ts` lines 143–152). -/
def expandAbbreviations (text : Str) : Str :=
  COMMON_ABBREVIATIONS.foldl (fun t rule => abbrevReplace rule t) text

/-- Apply a per-line rewrite to every line (`gim`-flag whole-line
replaces). -/
def mapLines (f : Str → Str) (text : Str) : Str :=
  joinNl ((splitNl text).map f)

/-- `^\s*\d+\s*$` — a standalone number line. -/
def pageNumLine (l : Str) : Bool :=
  let a := l.dropWhile isJsWs
  let d := a.takeWhile isDigitCh
  ! d.isEmpty && (a.drop d.length).all isJsWs

/-- `^\s*[-_]{3,}\s*$` — a horizontal rule line. -/
def hruleLine (l : Str) : Bool :=
  let a := l.dropWhile isJsWs
  let m := a.takeWhile fun c => c = '-' || c = '_'
  3 ≤ m.length && (a.drop m.length).all isJsWs

/-- Strip trailing JS whitespace. -/
def trimEndWs (l : Str) : Str := (l.reverse.dropWhile isJsWs).reverse

/-- `^.*\.{3,}.*\d+\s*$` — a table-of-contents line: after stripping
trailing whitespace it ends in a digit, with a run of three or more dots
somewhere before that digit. -/
def tocLine (l : Str) : Bool :=
  let t := trimEndWs l
  match t.reverse with
  | [] => false
  | c :: _ => isDigitCh c && occursIn (t.take (t.length - 1)) ('.' :: '.' :: '.' :: [])

/-- `^(Kapitel|Chapter|Teil|Part|Abschnitt|Section)\s+\d+.*$/gim` — a chapter
marker line. -/
def chapterLineTest (line : Str) : Bool :=
  ["Kapitel".toList, "Chapter".toList, "Teil".toList, "Part".toList,
   "Abschnitt".toList, "Section".toList].any fun kw =>
    startsWithCI line kw &&
      (let r := line.drop kw.length
       let ws := r.takeWhile isJsWs
       ! ws.isEmpty && ! ((r.drop ws.length).takeWhile isDigitCh).isEmpty)

/-- `^[\-\*•]\s+(.*)$/gm → '$1, '` — bullet lines become prose. -/
def listLineStep (l : Str) : Str :=
  match l with
  | c :: r =>
    if c = '-' || c = '*' || c = '•' then
      let ws := r.takeWhile isJsWs
      if ws.isEmpty then l else (r.drop ws.length) ++ (',' :: ' ' :: [])
    else l
  | [] => l

/-- After a hyphen: `\s*\n\s*` then a German letter — the whitespace run must
contain a newline and the letter follows it directly. -/
def hyphenMatchAfter (r : Str) : Option (Char × Str) :=
  match r with
  | c :: r2 =>
    if c = '-' then
      let run := r2.takeWhile isJsWs
      if run.contains nlChar then
        match r2.drop run.length with
        | l2 :: rest => if isGermanLetter l2 then some (l2, rest) else none
        | [] => none
      else none
    else none
  | [] => none

/-- `([a-zäöüß])-\s*\n\s*([a-zäöüß])/gi → '$1$2'` — join hyphenation at line
ends (the match consumes the second letter, so scanning resumes after it).
Fuel-bounded: each step consumes at least one character, so `s.length + 1`
fuel evaluates the whole input. -/
def hyphenJoinGo : Nat → Str → Str
  | 0, s => s
  | _ + 1, [] => []
  | fuel + 1, c :: r =>
    if isGermanLetter c then
      match hyphenMatchAfter r with
      | some p => c :: p.1 :: hyphenJoinGo fuel p.2
      | none => c :: hyphenJoinGo fuel r
    else c :: hyphenJoinGo fuel r

/-- The character class `[^.,?!:;"'›»\s)\]}>]` that the final URL character
must avoid (whitespace aside, which the run already excludes). -/
def urlExcluded (c : Char) : Bool :=
  c = '.' || c = ',' || c = '?' || c = '!' || c = ':' || c = ';' ||
  c = '"' || c = Char.ofNat 39 || c = '›' || c = '»' ||
  c = ')' || c = ']' || c = '}' || c = '>'

/-- `(https?:\/\/|www\.)` as a prefix length, case-insensitively. -/
def urlPrefixLen (s : Str) : Option Nat :=
  if startsWithCI s ("https://".toList) then some 8
  else if startsWithCI s ("http://".toList) then some 7
  else if startsWithCI s ("www.".toList) then some 4
  else none

/-- `[^\s]*[^.,?!:;"'›»\s)\]}>]` after the prefix: the backtracking regex
ends the match at the last non-excluded character of the non-whitespace
run. -/
def urlTailLen (s : Str) : Option Nat :=
  let run := s.takeWhile fun c => ! isJsWs c
  if run.isEmpty then none
  else
    match lastIdxSuchThat (fun i => ! urlExcluded (run.getD i ' ')) (run.length - 1) with
    | some j => some (j + 1)
    | none => none

/-- `\s*((https?:\/\/|www\.)[^\s]*[^.,?!:;"'›»\s)\]}>])/gi → ''` — remove
URLs together with the whitespace run immediately before them (fuel-bounded
scan; each step consumes at least one character). -/
def removeUrlsGo : Nat → Str → Str
  | 0, s => s
  | _ + 1, [] => []
  | fuel + 1, c :: r =>
    let s := c :: r
    let afterWs := s.drop (s.takeWhile isJsWs).length
    match urlPrefixLen afterWs with
    | some plen =>
      match urlTailLen (afterWs.drop plen) with
      | some tlen => removeUrlsGo fuel (afterWs.drop (plen + tlen))
      | none => c :: removeUrlsGo fuel r
    | none => c :: removeUrlsGo fuel r

/-- The local-part class `[a-zA-Z0-9._%+-]`. -/
def emailLocalCh (c : Char) : Bool :=
  ('a' ≤ c && c ≤ 'z') || ('A' ≤ c && c ≤ 'Z') || isDigitCh c ||
  c = '.' || c = '_' || c = '%' || c = '+' || c = '-'

/-- The domain class `[a-zA-Z0-9.-]`. -/
def emailDomCh (c : Char) : Bool :=
  ('a' ≤ c && c ≤ 'z') || ('A' ≤ c && c ≤ 'Z') || isDigitCh c ||
  c = '.' || c = '-'

def isAsciiLetter (c : Char) : Bool :=
  ('a' ≤ c && c ≤ 'z') || ('A' ≤ c && c ≤ 'Z')

/-- Length of a match of
`([a-zA-Z0-9._%+-]+@[a-zA-Z0-9.-]+\.[a-zA-Z]{2,})` at the head of `s`: the
greedy domain part keeps the largest split point whose dot is followed by at
least two letters, and the trailing letter run is then taken greedily. -/
def emailMatchLen (s : Str) : Option Nat :=
  let lcl := s.takeWhile emailLocalCh
  if lcl.isEmpty then none
  else
    match s.drop lcl.length with
    | c :: rest =>
      if c = '@' then
        let dom := rest.takeWhile emailDomCh
        match lastIdxSuchThat
          (fun d => decide (1 ≤ d) && (dom.getD d ' ' = '.') &&
            isAsciiLetter (dom.getD (d + 1) ' ') &&
            isAsciiLetter (dom.getD (d + 2) ' ')) dom.length with
        | some d =>
          let alen := ((dom.drop (d + 1)).takeWhile isAsciiLetter).length
          some (lcl.length + 1 + d + 1 + alen)
        | none => none
      else none
    | [] => none

/-- `\s*(<email>)/g → ''` — remove e-mail addresses with the whitespace run
before them (fuel-bounded scan). -/
def removeEmailsGo : Nat → Str → Str
  | 0, s => s
  | _ + 1, [] => []
  | fuel + 1, c :: r =>
    let s := c :: r
    let afterWs := s.drop (s.takeWhile isJsWs).length
    match emailMatchLen afterWs with
    | some mlen => removeEmailsGo fuel (afterWs.drop mlen)
    | none => c :: removeEmailsGo fuel r

/-- Continuation of `\[\d+(?:[-,\s]+\d+)*\]` after the leading digit run:
either the closing bracket, or a separator run `[-,\s]+` followed by more
digits (fuel-bounded; each round consumes at least one character). -/
def squareRefCont : Nat → Str → Option Str
  | 0, _ => none
  | _ + 1, [] => none
  | fuel + 1, c :: r =>
    if c = ']' then some r
    else
      let sep := (c :: r).takeWhile fun x => x = '-' || x = ',' || isJsWs x
      if sep.isEmpty then none
      else
        let after := (c :: r).drop sep.length
        let d2 := after.takeWhile isDigitCh
        if d2.isEmpty then none else squareRefCont fuel (after.drop d2.length)

/-- `\[\d+(?:[-,\s]+\d+)*\]/g` — a numeric citation such as `[1, 2]`, matched
directly after the opening bracket; returns the remainder after the match. -/
def squareRefAfter (s : Str) : Option Str :=
  let d := s.takeWhile isDigitCh
  if d.isEmpty then none
  else squareRefCont (s.length + 1) (s.drop d.length)

/-- The name class `[A-Za-zÀ-ſ\s.&]` of the author-year pattern. -/
def citeNameCh (c : Char) : Bool :=
  isAsciiLetter c || (0xC0 ≤ c.toNat && c.toNat ≤ 0x17F) || isJsWs c ||
  c = '.' || c = '&'

/-- `\([A-Za-zÀ-ſ\s.&]+,?\s+(?:19|20)\d{2}(?::\s?\d+)?\)/g` after
the opening parenthesis.  The comma, the year and the closing parenthesis are
outside the name class, so backtracking reduces to: either the name run is
followed by a comma and then mandatory whitespace, or the run itself ends in
whitespace (the `\s+` comes from inside the greedy run, which must then still
hold at least one character of its own).  Returns the remainder after the
match. -/
def citeRefAfter (s : Str) : Option Str :=
  let run := s.takeWhile citeNameCh
  if run.isEmpty then none
  else
    let afterRun := s.drop run.length
    let tailWs := (run.reverse.takeWhile isJsWs).length
    match afterRun with
    | c :: rest =>
      if c = ',' then
        let ws2 := rest.takeWhile isJsWs
        if ws2.isEmpty then none else citeYear (rest.drop ws2.length)
      else if 1 ≤ tailWs && 2 ≤ run.length then citeYear afterRun
      else none
    | [] => none
where
  citeYear (t : Str) : Option Str :=
    if (startsWith t ("19".toList) || startsWith t ("20".toList)) &&
        isDigitCh (t.getD 2 ' ') && isDigitCh (t.getD 3 ' ') then
      citeClose (t.drop 4)
    else none
  citeClose (t : Str) : Option Str :=
    match t with
    | ':' :: u =>
      let u2 := if isJsWs (u.getD 0 ' ') then u.drop 1 else u
      let d := u2.takeWhile isDigitCh
      if d.isEmpty then none
      else
        match u2.drop d.length with
        | ')' :: v => some v
        | _ => none
    | ')' :: v => some v
    | _ => none

/-- `\((?:vgl\.|siehe|see)\s+.*?\)/gi` after the opening parenthesis: one of
the keywords, whitespace, then lazily up to the first `)` with no newline in
between.  Returns the remainder after the match. -/
def vglRefAfter (s : Str) : Option Str :=
  match ["vgl.".toList, "siehe".toList, "see".toList].findSome? fun kw =>
      if startsWithCI s kw then some (s.drop kw.length) else none with
  | some r1 =>
    let ws := r1.takeWhile isJsWs
    if ws.isEmpty then none else vglScan (r1.drop ws.length)
  | none => none
where
  vglScan : Str → Option Str
    | [] => none
    | c :: r =>
      if c = ')' then some r
      else if c = nlChar then none
      else vglScan r

/-- One reference-removal pass over the text for a head-matcher that fires
after an opening delimiter (fuel-bounded scan). -/
def removeRefsGo (opener : Char) (after : Str → Option Str) : Nat → Str → Str
  | 0, s => s
  | _ + 1, [] => []
  | fuel + 1, c :: r =>
    if c = opener then
      match after r with
      | some rest => removeRefsGo opener after fuel rest
      | none => c :: removeRefsGo opener after fuel r
    else c :: removeRefsGo opener after fuel r

/-- `[ ]{2,}` → single space (only the space character; fuel-bounded). -/
def collapseSpaces : Nat → Str → Str
  | 0, s => s
  | _ + 1, [] => []
  | fuel + 1, c :: r =>
    if c = ' ' && r.headD 'x' = ' ' then
      ' ' :: collapseSpaces fuel (r.dropWhile fun x => x = ' ')
    else c :: collapseSpaces fuel r

/-- `\n{3,}` → `\n\n` (fuel-bounded). -/
def collapseNewlines : Nat → Str → Str
  | 0, s => s
  | _ + 1, [] => []
  | fuel + 1, c :: r =>
    if c = nlChar && r.headD 'x' = nlChar &&
        (r.drop 1).headD 'x' = nlChar then
      nlChar :: nlChar :: collapseNewlines fuel ((r.drop 1).dropWhile fun x => x = nlChar)
    else c :: collapseNewlines fuel r

/-- `\s+([.,!?;:])/g → '$1'` — remove whitespace before punctuation
(fuel-bounded; the greedy run must be followed directly by the punctuation
character, since its interior is all whitespace). -/
def fixPlenken : Nat → Str → Str
  | 0, s => s
  | _ + 1, [] => []
  | fuel + 1, c :: r =>
    if isJsWs c then
      match (c :: r).drop ((c :: r).takeWhile isJsWs).length with
      | d :: rest =>
        if d = '.' || d = ',' || d = '!' || d = '?' || d = ';' || d = ':' then
          d :: fixPlenken fuel rest
        else c :: fixPlenken fuel r
      | [] => c :: fixPlenken fuel r
    else c :: fixPlenken fuel r

/-- `\(\s+/g → '('` (fuel-bounded). -/
def fixParenOpen : Nat → Str → Str
  | 0, s => s
  | _ + 1, [] => []
  | fuel + 1, c :: r =>
    if c = '(' && isJsWs (r.headD 'x') then
      '(' :: fixParenOpen fuel (r.dropWhile isJsWs)
    else c :: fixParenOpen fuel r

/-- `\s+\)/g → ')'` (fuel-bounded). -/
def fixParenClose : Nat → Str → Str
  | 0, s => s
  | _ + 1, [] => []
  | fuel + 1, c :: r =>
    if isJsWs c then
      match (c :: r).drop ((c :: r).takeWhile isJsWs).length with
      | d :: rest =>
        if d = ')' then ')' :: fixParenClose fuel rest
        else c :: fixParenClose fuel r
      | [] => c :: fixParenClose fuel r
    else c :: fixParenClose fuel r

/-- `(\d+)\.(\d+)/g → '$1 Punkt $2'` (fuel-bounded; no match can start inside
a digit run that already failed, so the scan may skip the whole run). -/
def decimalPunktGo : Nat → Str → Str
  | 0, s => s
  | _ + 1, [] => []
  | fuel + 1, c :: r =>
    if isDigitCh c then
      let d1 := (c :: r).takeWhile isDigitCh
      match (c :: r).drop d1.length with
      | '.' :: rest =>
        let d2 := rest.takeWhile isDigitCh
        if d2.isEmpty then d1 ++ decimalPunktGo fuel ((c :: r).drop d1.length)
        else d1 ++ (' ' :: "Punkt ".toList) ++ d2 ++ decimalPunktGo fuel (rest.drop d2.length)
      | _ => d1 ++ decimalPunktGo fuel ((c :: r).drop d1.length)
    else c :: decimalPunktGo fuel r

/-- Position `p` is an `m`-flag line start in `t`. -/
def isLineStart (t : Str) (p : Nat) : Bool :=
  p = 0 || t.getD (p - 1) 'x' = nlChar

/-- Head match of the meditation-protection pattern
`^((?:(?:KURZE|LANGE|KLEINE|GROSSE)\s+)?(?:PAUSE|STILLE|NACHSPÜREN).*)$/gim`
(`src/services/geminiService.ts` line 195) at the suffix `u`, returning the
match length.  The adjective alternatives are mutually non-prefix, the
keyword must follow the maximal whitespace run (its first letter is not
whitespace), and no keyword starts with an adjective letter, so the optional
group needs no further backtracking.  `\s` may cross a newline, in which case
the match spans two physical lines, exactly as in JS. -/
def offlineMatchLen (u : Str) : Option Nat :=
  let pre : Option Nat :=
    match directiveAdjectives.findSome?
        (fun a => if startsWithCI u a then some a.length else none) with
    | some alen =>
      let ws := (u.drop alen).takeWhile isJsWs
      if ws.isEmpty then none else some (alen + ws.length)
    | none => some 0
  match pre with
  | some plen =>
    if directiveKeywords.any (fun kw => startsWithCI (u.drop plen) kw) then
      some (plen + ((u.drop plen).takeWhile fun ch => ch ≠ nlChar).length)
    else none
  | none => none

/-- `pauseRegex.exec(text)` with `lastIndex = p`: the first line start at or
after `p` where the pattern matches; returns the match position and length.
Fuel-bounded forward scan over positions. -/
def offlineFindFrom (t : Str) : Nat → Nat → Option (Nat × Nat)
  | 0, _ => none
  | fuel + 1, p =>
    if t.length < p then none
    else if isLineStart t p then
      match offlineMatchLen (t.drop p) with
      | some len => some (p, len)
      | none => offlineFindFrom t fuel (p + 1)
    else offlineFindFrom t fuel (p + 1)

/-- The placeholder `__PAUSE_PLACEHOLDER_${i}__`. -/
def offlinePh (i : Nat) : Str :=
  "__PAUSE_PLACEHOLDER_".toList ++ natStr i ++ "__".toList

/-- The meditation-protection `while`-loop of `cleanTextOffline` (lines
194–203): `exec` keeps its `lastIndex` across iterations while `text` is
rewritten by a first-occurrence literal replace of the captured line.  The
loop is fuel-bounded: a run in which every replacement hits the matched
occurrence itself performs at most one iteration per line, so
`text.length + 1` fuel covers it; on crafted placeholder-collision inputs the
JS loop never returns, which no total model can reproduce. -/
def offlineProtectLoop : Nat → Str → Nat → Nat → List Str → (List Str × Str)
  | 0, t, _, _, acc => (acc.reverse, t)
  | fuel + 1, t, lastIndex, idx, acc =>
    match offlineFindFrom t (t.length + 1) lastIndex with
    | some pl =>
      let matched := (t.drop pl.1).take pl.2
      offlineProtectLoop fuel (jsReplaceFirst t matched (offlinePh idx))
        (pl.1 + pl.2) (idx + 1) (matched :: acc)
    | none => (acc.reverse, t)

/-- The meditation-restoration loop of `cleanTextOffline` (lines 301–308):
`text.replace` of each placeholder, first occurrence, with the saved line
(whose `$` sequences are therefore substitution-active, as in JS). -/
def offlineRestoreGo : Str → Nat → List Str → Str
  | t, _, [] => t
  | t, k, o :: os => offlineRestoreGo (jsReplaceFirst t (offlinePh k) o) (k + 1) os

/-- `cleanTextOffline` (`src/services/geminiService.ts` lines 159–324).  The
generator yields `text` in fixed-size slices whose concatenation is `text`
itself, so the model returns that string; abort handling is the caller's
concern (see the watchdog model).  Every `replace` pass is embedded per the
regex semantics spelled out at its definition, in source order with the
source's mode guards. -/
def cleanTextOffline (rawText : Str) (options : CleaningOptions) : Str :=
  let isMeditationMode := options.processingMode = ProcessingMode.meditation
  let text := applyCustomReplacements rawText options.customReplacements
  let text := expandAbbreviations text
  let text := normalizeLineEndings text
  let prot :=
    if isMeditationMode then offlineProtectLoop (text.length + 1) text 0 0 []
    else ([], text)
  let pauseLines := prot.1
  let text := prot.2
  let text := mapLines (fun l => if pageNumLine l then [] else l) text
  let text := mapLines (fun l => if hruleLine l then [] else l) text
  let text :=
    if options.removeTableOfContents && ! isMeditationMode then
      mapLines (fun l => if tocLine l then [] else l) text
    else text
  let text :=
    if options.chapterStyle = ChapterStyle.remove && ! isMeditationMode then
      mapLines (fun l => if chapterLineTest l then [] else l) text
    else text
  let text :=
    if options.listStyle = ListStyle.prose then mapLines listLineStep text
    else text
  let text :=
    if options.hyphenationStyle = HyphenationStyle.join then
      hyphenJoinGo (text.length + 1) text
    else text
  let text :=
    if options.removeUrls && ! isMeditationMode then
      removeUrlsGo (text.length + 1) text
    else text
  let text :=
    if options.removeEmails && ! isMeditationMode then
      removeEmailsGo (text.length + 1) text
    else text
  let text :=
    if options.removeReferences && ! isMeditationMode then
      let t1 := removeRefsGo '[' squareRefAfter (text.length + 1) text
      let t2 := removeRefsGo '(' citeRefAfter (t1.length + 1) t1
      removeRefsGo '(' vglRefAfter (t2.length + 1) t2
    else text
  let text :=
    if options.correctTypography then
      let t1 := collapseSpaces (text.length + 1) text
      let t2 := collapseNewlines (t1.length + 1) t1
      let t3 := fixPlenken (t2.length + 1) t2
      let t4 := fixParenOpen (t3.length + 1) t3
      fixParenClose (t4.length + 1) t4
    else text
  let text := decimalPunktGo (text.length + 1) text
  if isMeditationMode && ! pauseLines.isEmpty then offlineRestoreGo text 0 pauseLines
  else text

/-- Uppercase counterpart of `lowerCh`. -/
def upperCh (c : Char) : Char :=
  if 'a' ≤ c && c ≤ 'z' then Char.ofNat (c.toNat - 32)
  else if c = 'ä' then 'Ä' else if c = 'ö' then 'Ö' else if c = 'ü' then 'Ü'
  else c

def isUpperCh (c : Char) : Bool := decide (lowerCh c ≠ c)

/-- Modelled from the spec: the `PHONETIC_MAPPINGS` table of
`services/utils.ts` as documented in the v2.4 developer guide (the current
`src/services/utils.ts` omits the implementation although
`src/services/geminiService.ts` imports it). -/
def PHONETIC_MAPPINGS : List (Str × Str) :=
  [("Chakra".toList, "Tschakra".toList),
   ("Chakren".toList, "Tschakren".toList),
   ("Chakras".toList, "Tschakras".toList),
   ("Regisseur".toList, "Reschissör".toList),
   ("Regisseure".toList, "Reschissöre".toList),
   ("Regime".toList, "Reschim".toList),
   ("Regie".toList, "Reschi".toList),
   ("Manche".toList, "Mannche".toList)]

/-- Modelled from the spec: case preservation — an all-caps match yields an
all-caps replacement, a capitalised match keeps the table's capitalised
replacement, and a lower-case match lower-cases the replacement. -/
def caseAdjust (span value : Str) : Str :=
  if span.all isUpperCh then value.map upperCh
  else if isUpperCh (span.headD ' ') then value
  else value.map lowerCh

/-- `[PAUSE\s+[\d.]+s\]` at the head of `s`, returning the tag length
(`pauseTagAtHead` with the consumed length made explicit). -/
def pauseTagLenAt (s : Str) : Option Nat :=
  if startsWithCI s ('[' :: 'P' :: 'A' :: 'U' :: 'S' :: 'E' :: []) then
    let r := s.drop 6
    let ws := r.takeWhile isJsWs
    if ws.isEmpty then none
    else
      let r2 := r.drop ws.length
      let ds := r2.takeWhile (fun c => isDigitCh c || c = '.')
      if ds.isEmpty then none
      else if startsWithCI (r2.drop ds.length) ('s' :: (']' :: [])) then
        some (6 + ws.length + ds.length + 2)
      else none
  else none

/-- A `[[PROTECTED_…]]` span at the head of `s`, up to and including the
closing `]]`, returning its length. -/
def protectedTagLenAt (s : Str) : Option Nat :=
  if startsWith s ("[[PROTECTED_".toList) then
    closeLen (s.drop 12) 12
  else none
where
  closeLen : Str → Nat → Option Nat
    | [], _ => none
    | c :: r, n =>
      if c = ']' && r.headD ' ' = ']' then some (n + 2)
      else closeLen r (n + 1)

/-- Modelled from the spec: the scan loop of `applyPhoneticCorrections` —
system tags (`[PAUSE Xs]`, `[[PROTECTED_…]]`) are masked, each table key is
replaced only as a whole word (`\b…\b`, case-insensitively) with case
preservation.  The table's keys never occur in any replacement value, so the
documented per-key replaces coincide with this single left-to-right scan.
`prevWord` records whether the previous character was a word character
(the left `\b` test); fuel-bounded (each step consumes one character or
more). -/
def phoneticGo : Nat → Bool → Str → Str
  | 0, _, s => s
  | _ + 1, _, [] => []
  | fuel + 1, prevWord, c :: r =>
    let s := c :: r
    match pauseTagLenAt s with
    | some n => s.take n ++ phoneticGo fuel false (s.drop n)
    | none =>
      match protectedTagLenAt s with
      | some n => s.take n ++ phoneticGo fuel false (s.drop n)
      | none =>
        match
          if prevWord then none
          else
            PHONETIC_MAPPINGS.findSome? fun kv =>
              if startsWithCI s kv.1 && ! isWordCh (s.getD kv.1.length ' ') then
                some kv
              else none
        with
        | some kv =>
          caseAdjust (s.take kv.1.length) kv.2 ++
            phoneticGo fuel true (s.drop kv.1.length)
        | none => c :: phoneticGo fuel (isWordCh c) r

/-- Modelled from the spec: `applyPhoneticCorrections(text)` from the v2.4
developer guide. -/
def applyPhoneticCorrections (text : Str) : Str :=
  phoneticGo (text.length + 1) false text

/-- The offline fallback of the watchdog (`attemptOfflineFallback`, lines
779–794): offline cleaning of the original chunk, then phonetic corrections
when enabled (`options.applyPhoneticCorrections !== false`; the option is a
plain `Bool` here, `true` meaning enabled). -/
def attemptOfflineFallback (chunk : Str) (options : CleaningOptions) : Str :=
  let c := cleanTextOffline chunk options
  if options.applyPhoneticCorrections then applyPhoneticCorrections c else c

/-- Result of the watchdog: a resolved chunk or a rethrown abort. -/
inductive WatchdogOutcome
  | ok (text : Str)
  | aborted
deriving DecidableEq

/-- `processChunkWithWatchdog` (lines 720–814).  The two delegated attempts
(`runWithTimeout(attemptCleaning)`) depend on the network stream, so their
outcomes enter as parameters: `Except.ok t` for a resolved attempt with text
`t` (stage-direction restore and phonetic pass already applied inside the
attempt), `Except.error e` for a rejection or the 130-second timeout with
message `e`.  `aborted1`/`aborted2` are the `signal.aborted` reads in the two
`catch` blocks; an abort rethrows, anything else falls through to the retry
and then to the deterministic offline fallback. -/
def processChunkWithWatchdog (chunk : Str) (options : CleaningOptions)
    (attempt1 attempt2 : Except Str Str) (aborted1 aborted2 : Bool) :
    WatchdogOutcome :=
  match attempt1 with
  | Except.ok t => WatchdogOutcome.ok t
  | Except.error _ =>
    if aborted1 then WatchdogOutcome.aborted
    else
      match attempt2 with
      | Except.ok t => WatchdogOutcome.ok t
      | Except.error _ =>
        if aborted2 then WatchdogOutcome.aborted
        else WatchdogOutcome.ok (attemptOfflineFallback chunk options)

/-- The alphanumeric class `[a-zA-Z0-9äöüÄÖÜß]` of `sanitizeTextContent`. -/
def isAlnumDe (c : Char) : Bool :=
  ('a' ≤ c && c ≤ 'z') || ('A' ≤ c && c ≤ 'Z') || isDigitCh c ||
  c = 'ä' || c = 'ö' || c = 'ü' || c = 'Ä' || c = 'Ö' || c = 'Ü' || c = 'ß'

/-- The invisible-character class of `sanitizeTextContent` step 2
(`[­​-‍⁠﻿�\x0B\x0C  ᠎ -   　]`). -/
def isInvisibleCh (c : Char) : Bool :=
  let n := c.toNat
  n = 0xAD || (0x200B ≤ n && n ≤ 0x200D) || n = 0x2060 || n = 0xFEFF ||
  n = 0xFFFD || n = 0x0B || n = 0x0C || n = 0xA0 || n = 0x1680 ||
  n = 0x180E || (0x2000 ≤ n && n ≤ 0x200A) || n = 0x202F || n = 0x205F ||
  n = 0x3000

/-- The control-character class `[\x00-\x09\x0B-\x1F\x7F]` (newline is kept,
tab is removed). -/
def isCtrlCh (c : Char) : Bool :=
  let n := c.toNat
  n ≤ 9 || (0x0B ≤ n && n ≤ 0x1F) || n = 0x7F

def isSpTab (c : Char) : Bool := c = ' ' || c = Char.ofNat 9

/-- `[ \t]+/g → ' '` — every maximal space-or-tab run becomes one space
(fuel-bounded). -/
def collapseSpTab : Nat → Str → Str
  | 0, s => s
  | _ + 1, [] => []
  | fuel + 1, c :: r =>
    if isSpTab c then ' ' :: collapseSpTab fuel (r.dropWhile isSpTab)
    else c :: collapseSpTab fuel r

/-- `[ \t]+$/gm → ''` on one line. -/
def trimEndSpTab (l : Str) : Str := (l.reverse.dropWhile isSpTab).reverse

/-- `/^(Seite|Page)\s*\d+$/i` on an already-trimmed line. -/
def seitePageLine (t : Str) : Bool :=
  ["Seite".toList, "Page".toList].any fun kw =>
    startsWithCI t kw &&
      (let r := t.drop kw.length
       let ws := r.takeWhile isJsWs
       let d := (r.drop ws.length).takeWhile isDigitCh
       ! d.isEmpty && (r.drop (ws.length + d.length)).isEmpty)

/-- The ghost-line filter of `sanitizeTextContent` step B: keep blank lines,
drop `Seite`/`Page` number lines and lines with no alphanumeric character. -/
def ghostLineKeep (line : Str) : Bool :=
  let trimmed := jsTrim line
  if trimmed.isEmpty then true
  else if seitePageLine trimmed then false
  else trimmed.any isAlnumDe

/-- Two consecutive newline characters occur in `s`. -/
def hasDblNl : Str → Bool
  | a :: b :: r => (a = nlChar && b = nlChar) || hasDblNl (b :: r)
  | _ => false

/-- Index of the first newline pair in `s`, i.e. where the first `\n{2,}`
separator of `split(/\n{2,}/)` starts. -/
def firstDblNlIdx : Str → Option Nat
  | a :: b :: r =>
    if a = nlChar && b = nlChar then some 0
    else (firstDblNlIdx (b :: r)).map (· + 1)
  | _ => none

/-- `clean.split(/\n{2,}/)`: cut at the first newline pair, consume the whole
greedy newline run, repeat (fuel-bounded; each round removes at least two
characters). -/
def splitParasGo : Nat → Str → List Str
  | 0, s => [s]
  | fuel + 1, s =>
    match firstDblNlIdx s with
    | none => [s]
    | some i =>
      s.take i :: splitParasGo fuel ((s.drop i).dropWhile fun c => c = nlChar)

/-- Index of the first position whose character satisfies `p` with a JS
whitespace character right after it — the first match of `([.!?])\s` or
`([;:])\s` inside the search window. -/
def firstPairIdx (p : Char → Bool) : Str → Option Nat
  | a :: b :: r =>
    if p a && isJsWs b then some 0 else (firstPairIdx p (b :: r)).map (· + 1)
  | _ => none

/-- The split-point search of the force-split loop: window
`remaining.substring(700, 1000)` (the `MAX_PARAGRAPH_LENGTH` is 1000 and
`searchStart = max(0, 1000 - 300) = 700`), priority sentence `([.!?])\s` >
clause `([;:])\s` > last space > hard limit 1000. -/
def forceSplitIndex (remaining : Str) : Nat :=
  let window := jsSubstring remaining 700 1000
  match firstPairIdx (fun c => c = '.' || c = '!' || c = '?') window with
  | some i => 700 + i + 1
  | none =>
    match firstPairIdx (fun c => c = ';' || c = ':') window with
    | some i => 700 + i + 1
    | none =>
      if window.isEmpty then 1000
      else
        match lastIdxSuchThat (fun i => window.getD i 'x' = ' ')
            (window.length - 1) with
        | some i => 700 + i
        | none => 1000

/-- The `while (remaining.length > 0)` force-split loop, appending pieces to
the accumulated `safeParagraphs`.  Fuel-bounded: each round removes at least
`forceSplitIndex ≥ 700` characters, so `remaining.length + 1` fuel covers
the run. -/
def forceSplitGo : Nat → Str → List Str → List Str
  | 0, _, acc => acc
  | fuel + 1, remaining, acc =>
    if remaining.isEmpty then acc
    else if remaining.length ≤ 1000 then acc ++ [remaining]
    else
      let splitIndex := forceSplitIndex remaining
      forceSplitGo fuel (jsTrim (remaining.drop splitIndex))
        (acc ++ [jsTrim (remaining.take splitIndex)])

/-- One paragraph of the deconstruct-and-rebuild loop (step 6): skip empty
and non-alphanumeric paragraphs, push short ones, force-split long ones. -/
def sanitizeStep (acc : List Str) (p : Str) : List Str :=
  let trimmed := jsTrim p
  if trimmed.isEmpty then acc
  else if ! trimmed.any isAlnumDe then acc
  else if trimmed.length ≤ 1000 then acc ++ [trimmed]
  else forceSplitGo (trimmed.length + 1) trimmed acc

/-- `safeParagraphs.join('\n\n')`. -/
def joinParas : List Str → Str
  | [] => []
  | [x] => x
  | x :: xs => x ++ nlChar :: nlChar :: joinParas xs

/-- `sanitizeTextContent` (`src/services/utils.ts` lines 113–213),
parameterised over the Unicode NFC normalisation `nfc` of step 1 (a host
function with no tractable embedding; every property proved below holds for
an arbitrary normalisation).  The hyphenation class `[a-zA-ZäöüÄÖÜß]` is
exactly `isGermanLetter`, so step A reuses `hyphenJoinGo`. -/
def sanitizeTextContent (nfc : Str → Str) (text : Str) : Str :=
  if text.isEmpty then []
  else
    let clean := nfc text
    let clean := clean.map fun c => if isInvisibleCh c then ' ' else c
    let clean := normalizeLineEndings clean
    let clean := hyphenJoinGo (clean.length + 1) clean
    let clean := joinNl ((splitNl clean).filter ghostLineKeep)
    let clean := clean.filter fun c => ! isCtrlCh c
    let clean := collapseSpTab (clean.length + 1) clean
    let clean := mapLines trimEndSpTab clean
    let paragraphs := splitParasGo (clean.length + 1) clean
    joinParas (paragraphs.foldl sanitizeStep [])

/-- The blank-line-separated blocks of a string: its `split(/\n{2,}/)`
pieces, with the empty string having none. -/
def paraBlocks (s : Str) : List Str :=
  if s.isEmpty then [] else splitParasGo (s.length + 1) s

/-- Last character of a list with a default (reversed `headD`). -/
def lastD (l : Str) (d : Char) : Char := l.reverse.headD d

/-- The shape every entry of `safeParagraphs` has: within the length limit,
non-empty, free of newline pairs, and trimmed at both ends. -/
def goodPiece (x : Str) : Prop :=
  x.length ≤ 1000 ∧ x ≠ [] ∧ hasDblNl x = false ∧
  isJsWs (x.headD 'x') = false ∧ isJsWs (lastD x 'x') = false

/-- The 1002-character paragraph `'#' * 1000 ++ " a"` used to probe the
force-split loop of `sanitizeTextContent`. -/
def symbolicEx : Str := List.replicate 1000 '#' ++ (' ' :: 'a' :: [])

end TA

/-! ## Lemmas about the chunker -/

namespace TA

theorem computeSplit_gt (t : Str) (cur n : Nat) (hn : 1 ≤ n) :
    cur < computeSplit t cur n := by
  unfold computeSplit
  dsimp only
  split
  · omega
  · omega

theorem jsSubstring_append_drop (t : Str) (cur sp : Nat)
    (h : cur ≤ sp) (hc : cur ≤ t.length) :
    jsSubstring t cur sp ++ t.drop sp = t.drop cur := by
  rw [show jsSubstring t cur sp =
        ((t.drop (min (min cur t.length) (min sp t.length))).take
          (max (min cur t.length) (min sp t.length) -
            min (min cur t.length) (min sp t.length))) from rfl]
  rcases Nat.le_total sp t.length with hsl | hsl
  · have h1 : min cur t.length = cur := Nat.min_eq_left hc
    have h2 : min sp t.length = sp := Nat.min_eq_left hsl
    rw [h1, h2, Nat.min_eq_left h, Nat.max_eq_right h]
    have hd : t.drop sp = (t.drop cur).drop (sp - cur) := by
      rw [List.drop_drop]
      congr 1
      omega
    rw [hd, List.take_append_drop]
  · have h1 : min cur t.length = cur := by omega
    have h2 : min sp t.length = t.length := by omega
    rw [h1, h2, Nat.min_eq_left hc, Nat.max_eq_right hc]
    have hnil : t.drop sp = [] := List.drop_eq_nil_of_le (by omega)
    rw [hnil, List.append_nil]
    have hlen : (t.drop cur).length = t.length - cur := List.length_drop ..
    rw [List.take_of_length_le (by omega)]

theorem chunksGo_concat (t : Str) (n : Nat) (hn : 1 ≤ n) :
    ∀ fuel cur, t.length - cur ≤ fuel →
      concatChunks (chunksGo t n fuel cur) = t.drop cur := by
  intro fuel
  induction fuel with
  | zero =>
    intro cur h
    have : t.length ≤ cur := by omega
    simp [chunksGo, concatChunks, List.drop_eq_nil_of_le this]
  | succ fuel ih =>
    intro cur h
    rw [chunksGo]
    by_cases hcur : t.length ≤ cur
    · rw [if_pos hcur]
      simp [concatChunks, List.drop_eq_nil_of_le hcur]
    · rw [if_neg hcur]
      push_neg at hcur
      by_cases hfit : t.length - cur ≤ n
      · rw [if_pos hfit]
        simp [concatChunks, jsSubstringFrom]
      · rw [if_neg hfit]
        have hlt := computeSplit_gt t cur n hn
        have hrec := ih (computeSplit t cur n) (by omega)
        show (jsSubstring t cur (computeSplit t cur n) ::
                chunksGo t n fuel (computeSplit t cur n)).flatten = t.drop cur
        rw [List.flatten_cons]
        rw [show (chunksGo t n fuel (computeSplit t cur n)).flatten =
              concatChunks (chunksGo t n fuel (computeSplit t cur n)) from rfl, hrec]
        exact jsSubstring_append_drop t cur (computeSplit t cur n)
          (Nat.le_of_lt hlt) (by omega)

theorem smartSplitText_concat (s : Str) (n : Nat) (hn : 1 ≤ n) :
    concatChunks (smartSplitText s n) = normalizeLineEndings s := by
  unfold smartSplitText
  by_cases hs : s = []
  · subst hs
    simp [concatChunks, normalizeLineEndings, crlfToNl]
  · simp only [if_neg hs]
    have := chunksGo_concat (normalizeLineEndings s) n hn
      ((normalizeLineEndings s).length + 1) 0 (by omega)
    simpa using this

theorem crlfToNl_of_no_cr (s : Str) (h : crChar ∉ s) : crlfToNl s = s := by
  induction s using crlfToNl.induct with
  | case1 => rfl
  | case2 c => rfl
  | case3 a b rest hab ih =>
    exfalso
    simp only [Bool.and_eq_true, decide_eq_true_eq] at hab
    exact h (hab.1 ▸ List.mem_cons_self ..)
  | case4 a b rest hab ih =>
    rw [crlfToNl, if_neg (by simpa using hab)]
    rw [ih (fun hh => h (List.mem_cons_of_mem _ hh))]

theorem normalizeLineEndings_of_no_cr (s : Str) (h : crChar ∉ s) :
    normalizeLineEndings s = s := by
  unfold normalizeLineEndings
  rw [crlfToNl_of_no_cr s h]
  have : ∀ l : Str, crChar ∉ l →
      l.map (fun c => if c = crChar then nlChar else c) = l := by
    intro l hl
    induction l with
    | nil => rfl
    | cons c rest ih =>
      have hc : c ≠ crChar := fun hh => hl (hh ▸ List.mem_cons_self ..)
      simp only [List.map_cons, if_neg hc]
      rw [ih (fun hh => hl (List.mem_cons_of_mem _ hh))]
  exact this s h

/-! ## Lemmas about literal matching -/

theorem startsWith_nil_pat (s : Str) : startsWith s [] = true := by
  cases s <;> rfl

theorem startsWith_append_self (pat t : Str) :
    startsWith (pat ++ t) pat = true := by
  induction pat with
  | nil => exact startsWith_nil_pat t
  | cons p ps ih => simp [startsWith, ih]

theorem startsWith_self (pat : Str) : startsWith pat pat = true := by
  have := startsWith_append_self pat []
  simpa using this

theorem startsWith_extend {l : Str} {pat : Str} (t : Str)
    (h : startsWith l pat = true) : startsWith (l ++ t) pat = true := by
  induction pat generalizing l with
  | nil => exact startsWith_nil_pat _
  | cons p ps ih =>
    cases l with
    | nil => simp [startsWith] at h
    | cons c r =>
      simp only [startsWith, Bool.and_eq_true] at h ⊢
      exact ⟨h.1, ih h.2⟩

theorem occursIn_extend {l pat : Str} (t : Str)
    (h : occursIn l pat = true) : occursIn (l ++ t) pat = true := by
  induction l with
  | nil =>
    cases pat with
    | nil => cases t <;> simp [occursIn, startsWith_nil_pat]
    | cons p ps => simp [occursIn, startsWith] at h
  | cons c r ih =>
    simp only [occursIn, Bool.or_eq_true] at h
    rcases h with h | h
    · simp only [List.cons_append, occursIn, Bool.or_eq_true]
      exact Or.inl (startsWith_extend t h)
    · simp only [List.cons_append, occursIn, Bool.or_eq_true]
      exact Or.inr (ih h)

theorem occursIn_of_startsWith {s pat : Str} (h : startsWith s pat = true) :
    occursIn s pat = true := by
  cases s with
  | nil => simpa [occursIn] using h
  | cons c r => simp [occursIn, h]

theorem not_occursIn_tail {c : Char} {r pat : Str}
    (h : occursIn (c :: r) pat = false) : occursIn r pat = false := by
  simp only [occursIn, Bool.or_eq_false_iff] at h
  exact h.2

theorem startsWith_of_startsWith_append {p q : Str} :
    ∀ s : Str, startsWith s (p ++ q) = true → startsWith s p = true := by
  induction p with
  | nil => intro s _; exact startsWith_nil_pat s
  | cons a ps ih =>
    intro s hs
    cases s with
    | nil => simp [startsWith] at hs
    | cons c r =>
      simp only [List.cons_append, startsWith, Bool.and_eq_true] at hs ⊢
      exact ⟨hs.1, ih r hs.2⟩

theorem occursIn_of_prefixPat {l p q : Str}
    (h : occursIn l (p ++ q) = true) : occursIn l p = true := by
  induction l with
  | nil =>
    simp only [occursIn] at h ⊢
    exact startsWith_of_startsWith_append [] h
  | cons c r ih =>
    simp only [occursIn, Bool.or_eq_true] at h ⊢
    rcases h with h | h
    · exact Or.inl (startsWith_of_startsWith_append _ h)
    · exact Or.inr (ih h)

/-- Cross-boundary lemma: a newline-free pattern that matches at the start of
`x ++ '\n' :: rest` already matches within `x`. -/
theorem startsWith_cross {pat : Str} (hnl : nlChar ∉ pat) :
    ∀ x rest : Str, startsWith (x ++ nlChar :: rest) pat = true →
      startsWith x pat = true := by
  induction pat with
  | nil => intro x rest _; exact startsWith_nil_pat x
  | cons p ps ih =>
    intro x rest h
    cases x with
    | nil =>
      simp only [List.nil_append, startsWith, Bool.and_eq_true,
        decide_eq_true_eq] at h
      exact absurd (h.1 ▸ List.mem_cons_self ..) hnl
    | cons a x' =>
      simp only [List.cons_append, startsWith, Bool.and_eq_true] at h ⊢
      exact ⟨h.1, ih (fun hm => hnl (List.mem_cons_of_mem _ hm)) x' rest h.2⟩

/-! ## Lemmas about `replace` and the restore loop -/

theorem hasDollarEscape_tail {c : Char} {r : Str}
    (h : hasDollarEscape (c :: r) = false) : hasDollarEscape r = false := by
  unfold hasDollarEscape at h ⊢
  simp only [List.any_eq_false] at h ⊢
  intro p hp
  have h1 : occursIn (c :: r) p = false := by simpa using h p hp
  simpa using not_occursIn_tail h1

theorem hasDollarEscape_pair {c : Char} {r : Str}
    (h : hasDollarEscape ('$' :: c :: r) = false) :
    c ≠ '$' ∧ c ≠ '&' ∧ c ≠ Char.ofNat 96 ∧ c ≠ Char.ofNat 39 := by
  unfold hasDollarEscape at h
  simp only [List.any_eq_false] at h
  refine ⟨?_, ?_, ?_, ?_⟩ <;>
    [have hp := h ['$', '$'] (by simp [dollarPairs]);
     have hp := h ['$', '&'] (by simp [dollarPairs]);
     have hp := h ['$', Char.ofNat 96] (by simp [dollarPairs]);
     have hp := h ['$', Char.ofNat 39] (by simp [dollarPairs])] <;>
  · intro hc
    subst hc
    simp [occursIn, startsWith, startsWith_nil_pat] at hp

theorem dollarSubst_id (matched before after : Str) :
    ∀ repl : Str, hasDollarEscape repl = false →
      dollarSubst matched before after repl = repl := by
  intro repl
  induction repl using dollarSubst.induct matched before after with
  | case1 => intro _; simp [dollarSubst]
  | case2 => intro _; simp [dollarSubst]
  | case3 r2 ih =>
    intro h
    exact absurd rfl (hasDollarEscape_pair h).1
  | case4 r2 _ ih =>
    intro h
    exact absurd rfl (hasDollarEscape_pair h).2.1
  | case5 r2 _ _ ih =>
    intro h
    exact absurd rfl (hasDollarEscape_pair h).2.2.1
  | case6 r2 _ _ _ ih =>
    intro h
    exact absurd rfl (hasDollarEscape_pair h).2.2.2
  | case7 d r2 hd1 hd2 hd3 hd4 ih =>
    intro h
    have step : dollarSubst matched before after ('$' :: d :: r2) =
        '$' :: dollarSubst matched before after (d :: r2) := by
      simp [dollarSubst, hd1, hd2, hd3, hd4]
    rw [step, ih (hasDollarEscape_tail h)]
  | case8 c r hc ih =>
    intro h
    have step : dollarSubst matched before after (c :: r) =
        c :: dollarSubst matched before after r := by
      rw [dollarSubst.eq_def]
      simp [hc]
    rw [step, ih (hasDollarEscape_tail h)]

theorem digitChar_is_digit (m : Nat) (h : m < 10) :
    isDigitCh (Char.ofNat (m + 48)) = true := by
  interval_cases m <;> decide

theorem natStr_go_digits :
    ∀ (fuel n : Nat) (acc : Str), (∀ c ∈ acc, isDigitCh c = true) →
      ∀ c ∈ natStr.go fuel n acc, isDigitCh c = true := by
  intro fuel
  induction fuel with
  | zero =>
    intro n acc hacc c hc
    rw [natStr.go] at hc
    exact hacc c hc
  | succ fuel ih =>
    intro n acc hacc c hc
    rw [natStr.go] at hc
    have hd : isDigitCh (Char.ofNat (n % 10 + 48)) = true :=
      digitChar_is_digit (n % 10) (Nat.mod_lt _ (by norm_num))
    have hacc' : ∀ x ∈ (Char.ofNat (n % 10 + 48) :: acc), isDigitCh x = true := by
      intro x hx
      rcases List.mem_cons.mp hx with hx | hx
      · exact hx ▸ hd
      · exact hacc x hx
    split at hc
    · exact hacc' c hc
    · exact ih (n / 10) _ hacc' c hc

theorem natStr_digits (n : Nat) : ∀ c ∈ natStr n, isDigitCh c = true :=
  natStr_go_digits (n + 1) n [] (by simp)

theorem nl_not_mem_placeholder (k : Nat) : nlChar ∉ placeholder k := by
  intro h
  unfold placeholder at h
  rcases List.mem_append.mp h with h | h
  · rcases List.mem_append.mp h with h | h
    · revert h
      decide
    · have := natStr_digits k nlChar h
      simp [isDigitCh, nlChar] at this
  · revert h
    decide

theorem occursIn_placeholder_of_prefixClean {l : Str} {k : Nat}
    (h : occursIn l phPrefix = false) :
    occursIn l (placeholder k) = false := by
  by_contra hcon
  have h1 : occursIn l (placeholder k) = true := by
    revert hcon
    cases occursIn l (placeholder k) <;> simp
  have : occursIn l phPrefix = true := occursIn_of_prefixPat (p := phPrefix)
    (q := natStr k ++ (']' :: ']' :: []))
    (by simpa [placeholder, List.append_assoc] using h1)
  simp [h] at this

theorem replFirstGo_head {pat repl : Str} (acc s : Str)
    (hs : startsWith s pat = true) (hrepl : hasDollarEscape repl = false) :
    replFirstGo pat repl acc s = acc.reverse ++ repl ++ s.drop pat.length := by
  rw [replFirstGo.eq_def]
  dsimp only
  rw [if_pos hs, dollarSubst_id _ _ _ _ hrepl]

theorem replFirstGo_step {pat repl : Str} (acc : Str) {c : Char} {r : Str}
    (hs : startsWith (c :: r) pat = false) :
    replFirstGo pat repl acc (c :: r) = replFirstGo pat repl (c :: acc) r := by
  rw [replFirstGo.eq_def]
  dsimp only
  rw [if_neg (by simp [hs])]

theorem replFirstGo_nil {pat repl : Str} (acc : Str)
    (hs : startsWith [] pat = false) :
    replFirstGo pat repl acc [] = acc.reverse := by
  rw [replFirstGo.eq_def]
  dsimp only
  rw [if_neg (by simp [hs])]

theorem replFirstGo_acc {pat repl : Str} (hrepl : hasDollarEscape repl = false) :
    ∀ (s acc : Str),
      replFirstGo pat repl acc s = acc.reverse ++ replFirstGo pat repl [] s := by
  intro s
  induction s with
  | nil =>
    intro acc
    by_cases hs : startsWith [] pat = true
    · rw [replFirstGo_head acc _ hs hrepl, replFirstGo_head [] _ hs hrepl]
      simp
    · have hs' : startsWith [] pat = false := by
        cases h' : startsWith [] pat
        · rfl
        · exact absurd h' hs
      rw [replFirstGo_nil acc hs', replFirstGo_nil [] hs']
      simp
  | cons c r ih =>
    intro acc
    by_cases hs : startsWith (c :: r) pat = true
    · rw [replFirstGo_head acc _ hs hrepl, replFirstGo_head [] _ hs hrepl]
      simp
    · have hs' : startsWith (c :: r) pat = false := by
        cases h' : startsWith (c :: r) pat
        · rfl
        · exact absurd h' hs
      rw [replFirstGo_step acc hs', replFirstGo_step [] hs']
      rw [ih (c :: acc), ih [c]]
      simp

theorem replFirstGo_skip_line {pat repl : Str} (hnl : nlChar ∉ pat) :
    ∀ l : Str, occursIn l pat = false → ∀ (acc rest : Str),
      replFirstGo pat repl acc (l ++ nlChar :: rest) =
        replFirstGo pat repl (nlChar :: (l.reverse ++ acc)) rest := by
  intro l
  induction l with
  | nil =>
    intro hocc acc rest
    have hpat : pat ≠ [] := by
      intro he
      subst he
      simp [occursIn, startsWith_nil_pat] at hocc
    have hs : startsWith (nlChar :: rest) pat = false := by
      cases pat with
      | nil => exact absurd rfl hpat
      | cons p ps =>
        have hp : ¬ (nlChar = p) := by
          intro he
          exact hnl (he ▸ List.mem_cons_self ..)
        simp [startsWith, hp]
    simpa using replFirstGo_step acc hs
  | cons a l' ih =>
    intro hocc acc rest
    have hs : startsWith ((a :: l') ++ nlChar :: rest) pat = false := by
      cases h' : startsWith ((a :: l') ++ nlChar :: rest) pat
      · rfl
      · exfalso
        have := startsWith_cross hnl (a :: l') rest h'
        have h2 := occursIn_of_startsWith this
        simp [hocc] at h2
    rw [show (a :: l') ++ nlChar :: rest = a :: (l' ++ nlChar :: rest) from rfl]
    rw [replFirstGo_step acc (by simpa using hs)]
    rw [ih (not_occursIn_tail hocc) (a :: acc) rest]
    congr 2
    simp

theorem joinNl_cons_ne {l : Str} {X : List Str} (hX : X ≠ []) :
    joinNl (l :: X) = l ++ nlChar :: joinNl X := by
  cases X with
  | nil => exact absurd rfl hX
  | cons a as => rfl

theorem replFirstGo_join {pat repl : Str} (hnl : nlChar ∉ pat)
    (hrepl : hasDollarEscape repl = false) :
    ∀ (A B : List Str) (acc : Str),
      (∀ l ∈ A, occursIn l pat = false) →
      replFirstGo pat repl acc (joinNl (A ++ pat :: B)) =
        acc.reverse ++ joinNl (A ++ repl :: B) := by
  intro A
  induction A with
  | nil =>
    intro B acc _
    cases B with
    | nil =>
      simp only [List.nil_append]
      rw [show joinNl [pat] = pat from rfl]
      rw [replFirstGo_head acc pat (startsWith_self pat) hrepl]
      simp [joinNl]
    | cons b bs =>
      simp only [List.nil_append]
      rw [joinNl_cons_ne (l := pat) (X := b :: bs) (by simp)]
      rw [replFirstGo_head acc _ (startsWith_append_self pat _) hrepl]
      rw [List.drop_left]
      rw [joinNl_cons_ne (l := repl) (X := b :: bs) (by simp)]
      simp
  | cons l A' ih =>
    intro B acc hA
    rw [show (l :: A') ++ pat :: B = l :: (A' ++ pat :: B) from rfl]
    rw [joinNl_cons_ne (l := l) (X := A' ++ pat :: B) (by simp)]
    rw [replFirstGo_skip_line hnl l (hA l (by simp)) acc (joinNl (A' ++ pat :: B))]
    rw [ih B (nlChar :: (l.reverse ++ acc)) (fun x hx => hA x (by simp [hx]))]
    rw [show (l :: A') ++ repl :: B = l :: (A' ++ repl :: B) from rfl]
    rw [joinNl_cons_ne (l := l) (X := A' ++ repl :: B) (by simp)]
    simp

theorem restoreGo_skip_line {l : Str} (hl : occursIn l phPrefix = false) :
    ∀ (os : List Str) (k : Nat) (T : Str),
      (∀ o ∈ os, hasDollarEscape o = false) →
      restoreGo (l ++ nlChar :: T) k os = l ++ nlChar :: restoreGo T k os := by
  intro os
  induction os with
  | nil => intro k T _; rfl
  | cons o os' ih =>
    intro k T hos
    have h1 : jsReplaceFirst (l ++ nlChar :: T) (placeholder k) o =
        l ++ nlChar :: jsReplaceFirst T (placeholder k) o := by
      unfold jsReplaceFirst
      rw [replFirstGo_skip_line (nl_not_mem_placeholder k) l
        (occursIn_placeholder_of_prefixClean hl) [] T]
      rw [replFirstGo_acc (hos o (by simp)) T (nlChar :: (l.reverse ++ []))]
      simp
    rw [restoreGo, h1, restoreGo]
    exact ih (k + 1) _ (fun o' ho' => hos o' (by simp [ho']))

theorem splitNl_ne_nil (s : Str) : splitNl s ≠ [] := by
  cases s with
  | nil => simp [splitNl]
  | cons c rest =>
    rw [splitNl]
    split <;> simp

theorem joinNl_splitNl (s : Str) : joinNl (splitNl s) = s := by
  induction s with
  | nil => rfl
  | cons c rest ih =>
    rw [splitNl]
    by_cases hc : c = nlChar
    · rw [if_pos hc]
      rw [joinNl_cons_ne (splitNl_ne_nil rest)]
      simp [hc, ih]
    · rw [if_neg hc]
      cases hr : splitNl rest with
      | nil => exact absurd hr (splitNl_ne_nil rest)
      | cons h t =>
        rw [hr] at ih
        cases t with
        | nil =>
          simp only [List.headD, List.tail]
          rw [show joinNl [c :: h] = c :: h from rfl]
          rw [show joinNl [h] = h from rfl] at ih
          rw [ih]
        | cons h2 t2 =>
          simp only [List.headD, List.tail]
          rw [joinNl_cons_ne (by simp)] at ih
          rw [joinNl_cons_ne (by simp)]
          rw [show (c :: h) ++ nlChar :: joinNl (h2 :: t2) =
            c :: (h ++ nlChar :: joinNl (h2 :: t2)) from rfl]
          rw [ih]

theorem splitNl_headD_prefix (s : Str) :
    ∃ t, s = (splitNl s).headD [] ++ t := by
  induction s with
  | nil => exact ⟨[], rfl⟩
  | cons c rest ih =>
    by_cases hc : c = nlChar
    · refine ⟨c :: rest, ?_⟩
      rw [splitNl, if_pos hc]
      simp
    · rcases ih with ⟨t, ht⟩
      refine ⟨t, ?_⟩
      rw [splitNl, if_neg hc]
      cases hr : splitNl rest with
      | nil => exact absurd hr (splitNl_ne_nil rest)
      | cons h t2 =>
        simp only [List.headD]
        rw [hr] at ht
        simp only [List.headD] at ht
        rw [show (c :: h) ++ t = c :: (h ++ t) from rfl, ← ht]

theorem splitNl_not_occursIn {pat : Str} :
    ∀ s : Str, occursIn s pat = false →
      ∀ l ∈ splitNl s, occursIn l pat = false := by
  intro s
  induction s with
  | nil =>
    intro h l hl
    simp [splitNl] at hl
    subst hl
    exact h
  | cons c rest ih =>
    intro h l hl
    rw [splitNl] at hl
    by_cases hc : c = nlChar
    · rw [if_pos hc] at hl
      rcases List.mem_cons.mp hl with hl | hl
      · subst hl
        cases hpat : pat with
        | nil =>
          exfalso
          rw [hpat] at h
          simp [occursIn, startsWith_nil_pat] at h
        | cons p ps => simp [occursIn, startsWith]
      · exact ih (not_occursIn_tail h) l hl
    · rw [if_neg hc] at hl
      rcases List.mem_cons.mp hl with hl | hl
      · subst hl
        cases hcon : occursIn (c :: (splitNl rest).headD []) pat
        · rfl
        · exfalso
          rcases splitNl_headD_prefix rest with ⟨t, ht⟩
          have hform : c :: rest = (c :: (splitNl rest).headD []) ++ t := by
            rw [List.cons_append, ← ht]
          have := occursIn_extend (l := c :: (splitNl rest).headD []) t hcon
          rw [← hform] at this
          simp [h] at this
      · have hmem : l ∈ splitNl rest := by
          cases hr : splitNl rest with
          | nil => exact absurd hr (splitNl_ne_nil rest)
          | cons hh tt =>
            rw [hr] at hl
            simp only [List.tail] at hl
            exact List.mem_cons_of_mem _ hl
        exact ih (not_occursIn_tail h) l hmem

theorem splitNl_no_nl : ∀ s : Str, ∀ l ∈ splitNl s, nlChar ∉ l := by
  intro s
  induction s with
  | nil =>
    intro l hl
    simp [splitNl] at hl
    subst hl
    simp
  | cons c rest ih =>
    intro l hl
    rw [splitNl] at hl
    by_cases hc : c = nlChar
    · rw [if_pos hc] at hl
      rcases List.mem_cons.mp hl with hl | hl
      · subst hl; simp
      · exact ih l hl
    · rw [if_neg hc] at hl
      rcases List.mem_cons.mp hl with hl | hl
      · subst hl
        intro hmem
        rcases List.mem_cons.mp hmem with he | he
        · exact hc he.symm
        · cases hr : splitNl rest with
          | nil => exact absurd hr (splitNl_ne_nil rest)
          | cons hh tt =>
            rw [hr] at he
            simp only [List.headD] at he
            exact ih hh (by rw [hr]; exact List.mem_cons_self ..) he
      · have hmem : l ∈ splitNl rest := by
          cases hr : splitNl rest with
          | nil => exact absurd hr (splitNl_ne_nil rest)
          | cons hh tt =>
            rw [hr] at hl
            simp only [List.tail] at hl
            exact List.mem_cons_of_mem _ hl
        exact ih l hmem

theorem protectGo_fst_length : ∀ (ls : List Str) (k : Nat),
    (protectGo ls k).1.length = ls.length := by
  intro ls
  induction ls with
  | nil => intro k; rfl
  | cons l ls ih =>
    intro k
    rw [protectGo]
    by_cases hp : isProtectedLine l
    · rw [if_pos hp]
      simp [ih (k + 1)]
    · rw [if_neg hp]
      simp [ih k]

theorem protectGo_snd_mem : ∀ (ls : List Str) (k : Nat) (o : Str),
    o ∈ (protectGo ls k).2 → o ∈ ls := by
  intro ls
  induction ls with
  | nil => intro k o h; simp [protectGo] at h
  | cons l ls ih =>
    intro k o h
    rw [protectGo] at h
    by_cases hp : isProtectedLine l
    · rw [if_pos hp] at h
      simp only at h
      rcases List.mem_cons.mp h with h | h
      · exact h ▸ List.mem_cons_self ..
      · exact List.mem_cons_of_mem _ (ih (k + 1) o h)
    · rw [if_neg hp] at h
      simp only at h
      exact List.mem_cons_of_mem _ (ih k o h)

theorem restore_protectGo :
    ∀ (lines : List Str) (k : Nat),
      (∀ l ∈ lines, nlChar ∉ l ∧ occursIn l phPrefix = false ∧
        hasDollarEscape l = false) →
      restoreGo (joinNl (protectGo lines k).1) k (protectGo lines k).2 =
        joinNl lines := by
  intro lines
  induction lines with
  | nil => intro k _; rfl
  | cons l ls ih =>
    intro k hyp
    have hl := hyp l (by simp)
    have hls : ∀ x ∈ ls, nlChar ∉ x ∧ occursIn x phPrefix = false ∧
        hasDollarEscape x = false := fun x hx => hyp x (by simp [hx])
    have hosEsc : ∀ k', ∀ o ∈ (protectGo ls k').2, hasDollarEscape o = false :=
      fun k' o ho => (hls o (protectGo_snd_mem ls k' o ho)).2.2
    by_cases hp : isProtectedLine l
    · rw [protectGo, if_pos hp]
      show restoreGo (joinNl (placeholder k :: (protectGo ls (k + 1)).1)) k
        (l :: (protectGo ls (k + 1)).2) = joinNl (l :: ls)
      rw [restoreGo]
      have hrepl : jsReplaceFirst (joinNl (placeholder k :: (protectGo ls (k + 1)).1))
          (placeholder k) l = joinNl (l :: (protectGo ls (k + 1)).1) := by
        have := replFirstGo_join (nl_not_mem_placeholder k) hl.2.2
          [] ((protectGo ls (k + 1)).1) [] (by intro x hx; simp at hx)
        simpa [jsReplaceFirst] using this
      rw [hrepl]
      by_cases hlsnil : ls = []
      · subst hlsnil
        rw [show protectGo [] (k + 1) = ([], []) from rfl]
        rfl
      · have hrs : (protectGo ls (k + 1)).1 ≠ [] := by
          intro he
          have := protectGo_fst_length ls (k + 1)
          rw [he] at this
          exact hlsnil (List.eq_nil_of_length_eq_zero this.symm)
        rw [joinNl_cons_ne (l := l) (X := (protectGo ls (k + 1)).1) hrs]
        rw [restoreGo_skip_line hl.2.1 _ (k + 1) _ (hosEsc (k + 1))]
        rw [ih (k + 1) hls]
        rw [joinNl_cons_ne (l := l) (X := ls) hlsnil]
    · rw [protectGo, if_neg hp]
      show restoreGo (joinNl (l :: (protectGo ls k).1)) k
        ((protectGo ls k).2) = joinNl (l :: ls)
      by_cases hlsnil : ls = []
      · subst hlsnil
        rw [show protectGo [] k = ([], []) from rfl]
        rfl
      · have hrs : (protectGo ls k).1 ≠ [] := by
          intro he
          have := protectGo_fst_length ls k
          rw [he] at this
          exact hlsnil (List.eq_nil_of_length_eq_zero this.symm)
        rw [joinNl_cons_ne (l := l) (X := (protectGo ls k).1) hrs]
        rw [restoreGo_skip_line hl.2.1 _ k _ (hosEsc k)]
        rw [ih k hls]
        rw [joinNl_cons_ne (l := l) (X := ls) hlsnil]

/-- C1 (corrected): the protection round trip
`restoreStageDirections (protectStageDirections s).protectedText
(protectStageDirections s).originalLines = s` holds for every input that does
not already contain the placeholder prefix `[[PROTECTED_STAGE_DIRECTION_` and
has no active `$`-escape sequence (`$$`, `$&`, ``$` ``, `$'`); the unrestricted
claim is refuted by `protect_restore_counterexample`. -/
theorem protect_restore_of_clean (s : Str)
    (h1 : occursIn s phPrefix = false) (h2 : hasDollarEscape s = false) :
    restoreStageDirections (protectStageDirections s).1
      (protectStageDirections s).2 = s := by
  unfold protectStageDirections restoreStageDirections
  simp only
  have hlines : ∀ l ∈ splitNl s, nlChar ∉ l ∧ occursIn l phPrefix = false ∧
      hasDollarEscape l = false := by
    intro l hl
    refine ⟨splitNl_no_nl s l hl, splitNl_not_occursIn s h1 l hl, ?_⟩
    unfold hasDollarEscape at h2 ⊢
    simp only [List.any_eq_false] at h2 ⊢
    intro p hp
    have hfalse : occursIn s p = false := by simpa using h2 p hp
    have := splitNl_not_occursIn s hfalse l hl
    simp [this]
  have := restore_protectGo (splitNl s) 0 hlines
  rw [this, joinNl_splitNl]

/-! ## Lemmas about the sanitizer -/

theorem startsWith_exists {s pat : Str} (h : startsWith s pat = true) :
    ∃ t, s = pat ++ t := by
  induction pat generalizing s with
  | nil => exact ⟨s, rfl⟩
  | cons p ps ih =>
    cases s with
    | nil => simp [startsWith] at h
    | cons c r =>
      rw [startsWith] at h
      simp only [Bool.and_eq_true, decide_eq_true_eq] at h
      obtain ⟨t, ht⟩ := ih h.2
      exact ⟨t, by simp [h.1, ht]⟩

theorem occursIn_exists {s pat : Str} (h : occursIn s pat = true) :
    ∃ a t, s = a ++ (pat ++ t) := by
  induction s with
  | nil =>
    rw [occursIn] at h
    obtain ⟨t, ht⟩ := startsWith_exists h
    exact ⟨[], t, by simpa using ht⟩
  | cons c r ih =>
    rw [occursIn] at h
    simp only [Bool.or_eq_true] at h
    rcases h with h | h
    · obtain ⟨t, ht⟩ := startsWith_exists h
      exact ⟨[], t, by simpa using ht⟩
    · obtain ⟨a, t, ht⟩ := ih h
      exact ⟨c :: a, t, by simp [ht]⟩

theorem occursIn_append_mid (a pat t : Str) :
    occursIn (a ++ (pat ++ t)) pat = true := by
  induction a with
  | nil =>
    simp only [List.nil_append]
    exact occursIn_of_startsWith (startsWith_append_self pat t)
  | cons c rest ih =>
    simp only [List.cons_append]
    rw [occursIn]
    rw [ih, Bool.or_true]

theorem hasDblNl_eq_occursIn :
    ∀ s : Str, hasDblNl s = occursIn s (nlChar :: nlChar :: []) := by
  intro s
  induction s with
  | nil => rfl
  | cons c r ih =>
    cases r with
    | nil => simp [hasDblNl, occursIn, startsWith]
    | cons b r2 =>
      rw [hasDblNl, occursIn, ih]
      have hse : startsWith (c :: b :: r2) (nlChar :: nlChar :: []) =
          (decide (c = nlChar) && decide (b = nlChar)) := by
        rw [startsWith, startsWith]
        rw [startsWith_nil_pat]
        simp [Bool.and_assoc]
      rw [hse]

theorem hasDblNl_take {s : Str} (n : Nat) (h : hasDblNl s = false) :
    hasDblNl (s.take n) = false := by
  rw [hasDblNl_eq_occursIn] at h ⊢
  by_contra hc
  rw [Bool.not_eq_false] at hc
  obtain ⟨a, t, ht⟩ := occursIn_exists hc
  have hs : s = a ++ ((nlChar :: nlChar :: []) ++ (t ++ s.drop n)) := by
    conv_lhs => rw [← List.take_append_drop n s]
    rw [ht]
    simp
  rw [hs, occursIn_append_mid] at h
  exact Bool.true_eq_false.mp h

theorem hasDblNl_drop {s : Str} (n : Nat) (h : hasDblNl s = false) :
    hasDblNl (s.drop n) = false := by
  rw [hasDblNl_eq_occursIn] at h ⊢
  by_contra hc
  rw [Bool.not_eq_false] at hc
  obtain ⟨a, t, ht⟩ := occursIn_exists hc
  have hs : s = (s.take n ++ a) ++ ((nlChar :: nlChar :: []) ++ t) := by
    conv_lhs => rw [← List.take_append_drop n s]
    rw [ht]
    simp
  rw [hs, occursIn_append_mid] at h
  exact Bool.true_eq_false.mp h

theorem hasDblNl_reverse_of {s : Str} (h : hasDblNl s = false) :
    hasDblNl s.reverse = false := by
  rw [hasDblNl_eq_occursIn] at h ⊢
  by_contra hc
  rw [Bool.not_eq_false] at hc
  obtain ⟨a, t, ht⟩ := occursIn_exists hc
  have hs : s = t.reverse ++ ((nlChar :: nlChar :: []) ++ a.reverse) := by
    have h2 := congrArg List.reverse ht
    rw [List.reverse_reverse] at h2
    rw [h2]
    simp [List.reverse_append]
  rw [hs, occursIn_append_mid] at h
  exact Bool.true_eq_false.mp h

theorem hasDblNl_dropWhile {p : Char → Bool} {s : Str}
    (h : hasDblNl s = false) : hasDblNl (s.dropWhile p) = false := by
  have hdw : s.dropWhile p = s.drop (s.takeWhile p).length := by
    have h2 := congrArg (List.drop (s.takeWhile p).length)
      (List.takeWhile_append_dropWhile p s)
    rw [List.drop_left] at h2
    exact h2
  rw [hdw]
  exact hasDblNl_drop _ h

theorem hasDblNl_jsTrim {s : Str} (h : hasDblNl s = false) :
    hasDblNl (jsTrim s) = false := by
  rw [jsTrim]
  exact hasDblNl_reverse_of
    (hasDblNl_dropWhile (hasDblNl_reverse_of (hasDblNl_dropWhile h)))

theorem length_dropWhile_le' (p : Char → Bool) (s : Str) :
    (s.dropWhile p).length ≤ s.length := by
  have h2 := congrArg List.length (List.takeWhile_append_dropWhile p s)
  rw [List.length_append] at h2
  omega

theorem jsTrim_length_le (s : Str) : (jsTrim s).length ≤ s.length := by
  rw [jsTrim]
  rw [List.length_reverse]
  calc ((s.dropWhile isJsWs).reverse.dropWhile isJsWs).length
      ≤ (s.dropWhile isJsWs).reverse.length := length_dropWhile_le' _ _
    _ = (s.dropWhile isJsWs).length := List.length_reverse _
    _ ≤ s.length := length_dropWhile_le' _ _

theorem dropWhile_head_false {p : Char → Bool} :
    ∀ (s : Str) {c : Char} {r : Str}, s.dropWhile p = c :: r → p c = false := by
  intro s
  induction s with
  | nil => intro c r h; simp at h
  | cons a s2 ih =>
    intro c r h
    rw [List.dropWhile] at h
    by_cases hp : p a
    · rw [hp] at h
      exact ih h
    · rw [Bool.not_eq_true] at hp
      rw [hp] at h
      simp only [List.cons.injEq] at h
      rw [← h.1]
      exact hp

theorem headD_append_left {x : Str} (y : Str) (d : Char) (hx : x ≠ []) :
    (x ++ y).headD d = x.headD d := by
  cases x with
  | nil => exact absurd rfl hx
  | cons c r => rfl

theorem lastD_reverse (X : Str) (d : Char) : lastD X.reverse d = X.headD d := by
  rw [lastD, List.reverse_reverse]

theorem lastD_append (a : Str) {Y : Str} (d : Char) (hY : Y ≠ []) :
    lastD (a ++ Y) d = lastD Y d := by
  rw [lastD, lastD, List.reverse_append]
  exact headD_append_left _ _ (by simpa using hY)

theorem lastD_cons (c : Char) {l : Str} (d : Char) (hl : l ≠ []) :
    lastD (c :: l) d = lastD l d := by
  have : c :: l = [c] ++ l := rfl
  rw [this]
  exact lastD_append [c] d hl

theorem jsTrim_last_not_ws {s : Str} (h : jsTrim s ≠ []) :
    isJsWs (lastD (jsTrim s) 'x') = false := by
  rw [jsTrim] at h ⊢
  rw [lastD, List.reverse_reverse]
  cases hY : (s.dropWhile isJsWs).reverse.dropWhile isJsWs with
  | nil => rw [hY] at h; simp at h
  | cons c r =>
    have := dropWhile_head_false _ hY
    simpa using this

theorem jsTrim_head_not_ws {s : Str} (h : jsTrim s ≠ []) :
    isJsWs ((jsTrim s).headD 'x') = false := by
  rw [jsTrim] at h ⊢
  have hYne : (s.dropWhile isJsWs).reverse.dropWhile isJsWs ≠ [] := by
    intro hc
    rw [hc] at h
    simp at h
  have hrevne : (s.dropWhile isJsWs).reverse ≠ [] := by
    intro hc
    rw [hc] at hYne
    simp at hYne
  have hune : s.dropWhile isJsWs ≠ [] := by simpa using hrevne
  have hdecomp := List.takeWhile_append_dropWhile isJsWs
    (s.dropWhile isJsWs).reverse
  have hlast : ((s.dropWhile isJsWs).reverse.dropWhile isJsWs).reverse.headD 'x'
      = lastD ((s.dropWhile isJsWs).reverse.dropWhile isJsWs) 'x' := rfl
  rw [hlast]
  have h1 : lastD ((s.dropWhile isJsWs).reverse.dropWhile isJsWs) 'x'
      = lastD (s.dropWhile isJsWs).reverse 'x' := by
    conv_rhs => rw [← hdecomp]
    exact (lastD_append _ _ hYne).symm
  rw [h1, lastD_reverse]
  cases hu : s.dropWhile isJsWs with
  | nil => exact absurd hu hune
  | cons c r =>
    have := dropWhile_head_false _ hu
    simpa using this

theorem jsTrim_ne_nil {c : Char} {r : Str} (hc : isJsWs c = false) :
    jsTrim (c :: r) ≠ [] := by
  rw [jsTrim]
  have hu : (c :: r).dropWhile isJsWs = c :: r := by
    rw [List.dropWhile]
    rw [hc]
  rw [hu]
  intro hcontra
  have hY : (c :: r).reverse.dropWhile isJsWs = [] := by simpa using hcontra
  rw [List.dropWhile_eq_nil_iff] at hY
  have hcm : c ∈ (c :: r).reverse := by simp
  have := hY c hcm
  rw [hc] at this
  exact Bool.false_eq_true.mp this

theorem firstDblNlIdx_none {s : Str} (h : hasDblNl s = false) :
    firstDblNlIdx s = none := by
  induction s with
  | nil => rfl
  | cons c r ih =>
    cases r with
    | nil => rfl
    | cons b r2 =>
      rw [hasDblNl] at h
      simp only [Bool.or_eq_false_iff] at h
      rw [firstDblNlIdx, h.1, ih h.2]
      rfl

theorem firstDblNlIdx_none_pairFree {s : Str}
    (h : firstDblNlIdx s = none) : hasDblNl s = false := by
  induction s with
  | nil => rfl
  | cons c r ih =>
    cases r with
    | nil => rfl
    | cons b r2 =>
      rw [firstDblNlIdx] at h
      rw [hasDblNl]
      by_cases hcb : (decide (c = nlChar) && decide (b = nlChar)) = true
      · rw [if_pos hcb] at h
        simp at h
      · rw [if_neg hcb] at h
        simp only [Option.map_eq_none'] at h
        rw [Bool.not_eq_true] at hcb
        rw [hcb, ih h]
        rfl

theorem firstDblNlIdx_drop {s : Str} :
    ∀ {i : Nat}, firstDblNlIdx s = some i →
      ∃ t, s.drop i = nlChar :: nlChar :: t := by
  induction s with
  | nil => intro i h; exact Option.noConfusion h
  | cons c r ih =>
    intro i h
    cases r with
    | nil => exact Option.noConfusion h
    | cons b r2 =>
      rw [firstDblNlIdx] at h
      by_cases hcb : (decide (c = nlChar) && decide (b = nlChar)) = true
      · rw [if_pos hcb] at h
        simp only [Option.some.injEq] at h
        simp only [Bool.and_eq_true, decide_eq_true_eq] at hcb
        refine ⟨r2, ?_⟩
        rw [← h, List.drop_zero, hcb.1, hcb.2]
      · rw [if_neg hcb] at h
        simp only [Option.map_eq_some'] at h
        obtain ⟨j, hj, hi⟩ := h
        obtain ⟨t, ht⟩ := ih hj
        exact ⟨t, by rw [← hi, List.drop_succ_cons, ht]⟩

theorem firstDblNlIdx_take {s : Str} :
    ∀ {i : Nat}, firstDblNlIdx s = some i →
      hasDblNl (s.take i) = false := by
  induction s with
  | nil => intro i h; exact Option.noConfusion h
  | cons c r ih =>
    intro i h
    cases r with
    | nil => exact Option.noConfusion h
    | cons b r2 =>
      rw [firstDblNlIdx] at h
      by_cases hcb : (decide (c = nlChar) && decide (b = nlChar)) = true
      · rw [if_pos hcb] at h
        simp only [Option.some.injEq] at h
        rw [← h]
        rfl
      · rw [if_neg hcb] at h
        simp only [Option.map_eq_some'] at h
        obtain ⟨j, hj, hi⟩ := h
        rw [← hi]
        cases j with
        | zero => simp [hasDblNl]
        | succ k =>
          have hstep : (c :: b :: r2).take (k + 1 + 1) =
              c :: ((b :: r2).take (k + 1)) := rfl
          rw [hstep]
          have h2 : (b :: r2).take (k + 1) = b :: r2.take k := rfl
          rw [h2, hasDblNl]
          rw [Bool.not_eq_true] at hcb
          rw [hcb]
          have := ih hj
          rw [h2] at this
          rw [this]
          rfl

theorem splitParasGo_pairFree :
    ∀ (fuel : Nat) (s : Str), s.length + 1 ≤ fuel →
      ∀ x ∈ splitParasGo fuel s, hasDblNl x = false := by
  intro fuel
  induction fuel with
  | zero => intro s hs; omega
  | succ n ih =>
    intro s hs x hx
    rw [splitParasGo] at hx
    cases hidx : firstDblNlIdx s with
    | none =>
      rw [hidx] at hx
      simp only [List.mem_singleton] at hx
      rw [hx]
      exact firstDblNlIdx_none_pairFree hidx
    | some i =>
      rw [hidx] at hx
      simp only [List.mem_cons] at hx
      rcases hx with hx | hx
      · rw [hx]
        exact firstDblNlIdx_take hidx
      · obtain ⟨t, hdrop⟩ := firstDblNlIdx_drop hidx
        have hlen2 : ((s.drop i).dropWhile (fun c => c = nlChar)).length + 1 ≤ n := by
          rw [hdrop]
          have h1 : (nlChar :: nlChar :: t).dropWhile (fun c => c = nlChar) =
              t.dropWhile (fun c => c = nlChar) := by
            rw [List.dropWhile, List.dropWhile]
            simp
          rw [h1]
          have h2 := length_dropWhile_le' (fun c => c = nlChar) t
          have h3 := congrArg List.length hdrop
          rw [List.length_drop] at h3
          simp only [List.length_cons] at h3
          omega
        exact ih _ hlen2 x hx

theorem firstPairIdx_bound {p : Char → Bool} :
    ∀ (w : Str) {i : Nat}, firstPairIdx p w = some i → i + 2 ≤ w.length := by
  intro w
  induction w with
  | nil => intro i h; exact Option.noConfusion h
  | cons a r ih =>
    intro i h
    cases r with
    | nil => exact Option.noConfusion h
    | cons b r2 =>
      rw [firstPairIdx] at h
      by_cases hab : (p a && isJsWs b) = true
      · rw [if_pos hab] at h
        simp only [Option.some.injEq] at h
        simp only [List.length_cons]
        omega
      · rw [if_neg hab] at h
        simp only [Option.map_eq_some'] at h
        obtain ⟨j, hj, hi⟩ := h
        have := ih hj
        simp only [List.length_cons] at this ⊢
        omega

theorem lastIdxSuchThat_le {p : Nat → Bool} :
    ∀ {m k : Nat}, lastIdxSuchThat p m = some k → k ≤ m := by
  intro m
  induction m with
  | zero =>
    intro k h
    rw [lastIdxSuchThat] at h
    split at h
    · cases h; exact Nat.le_refl _
    · simp at h
  | succ n ih =>
    intro k h
    rw [lastIdxSuchThat] at h
    split at h
    · cases h; exact Nat.le_refl _
    · exact Nat.le_trans (ih h) (by omega)

theorem forceSplitIndex_bounds (remaining : Str)
    (h : 1000 < remaining.length) :
    700 ≤ forceSplitIndex remaining ∧ forceSplitIndex remaining ≤ 1000 := by
  have hwl : (jsSubstring remaining 700 1000).length = 300 := by
    simp only [jsSubstring, List.length_take, List.length_drop]
    omega
  simp only [forceSplitIndex]
  constructor
  all_goals repeat' split
  all_goals first
    | omega
    | (rename_i i hi
       first
         | (have hb := firstPairIdx_bound _ hi; rw [hwl] at hb; omega)
         | (have hb := lastIdxSuchThat_le hi; rw [hwl] at hb; omega))

theorem isJsWs_nl : isJsWs nlChar = true := by decide

theorem forceSplitGo_good :
    ∀ (fuel : Nat) (remaining : Str) (acc : List Str),
      (∀ x ∈ acc, goodPiece x) →
      hasDblNl remaining = false →
      (remaining ≠ [] → isJsWs (remaining.headD 'x') = false ∧
        isJsWs (lastD remaining 'x') = false) →
      ∀ x ∈ forceSplitGo fuel remaining acc, goodPiece x := by
  intro fuel
  induction fuel with
  | zero =>
    intro remaining acc hacc _ _ x hx
    rw [forceSplitGo] at hx
    exact hacc x hx
  | succ n ih =>
    intro remaining acc hacc hdb hends x hx
    rw [forceSplitGo] at hx
    by_cases hemp : remaining.isEmpty = true
    · rw [if_pos hemp] at hx
      exact hacc x hx
    · rw [if_neg hemp] at hx
      have hne : remaining ≠ [] := by
        intro hc
        rw [hc] at hemp
        exact hemp rfl
      by_cases hlen : remaining.length ≤ 1000
      · rw [if_pos hlen] at hx
        rcases List.mem_append.mp hx with hx | hx
        · exact hacc x hx
        · rw [List.mem_singleton] at hx
          rw [hx]
          exact ⟨hlen, hne, hdb, (hends hne).1, (hends hne).2⟩
      · rw [if_neg hlen] at hx
        obtain ⟨c, r, hcr⟩ : ∃ c r, remaining = c :: r := by
          cases remaining with
          | nil => exact absurd rfl hne
          | cons c r => exact ⟨c, r, rfl⟩
        subst hcr
        have hheadws : isJsWs c = false := (hends hne).1
        have hbnds := forceSplitIndex_bounds (c :: r) (by omega)
        obtain ⟨r2, htake⟩ :
            ∃ r2, (c :: r).take (forceSplitIndex (c :: r)) = c :: r2 := by
          cases hk : forceSplitIndex (c :: r) with
          | zero =>
            exfalso
            rw [hk] at hbnds
            omega
          | succ m => exact ⟨r.take m, rfl⟩
        have hpne : jsTrim ((c :: r).take (forceSplitIndex (c :: r))) ≠ [] := by
          rw [htake]
          exact jsTrim_ne_nil hheadws
        have hpiece :
            goodPiece (jsTrim ((c :: r).take (forceSplitIndex (c :: r)))) := by
          refine ⟨?_, hpne, ?_, ?_, ?_⟩
          · calc (jsTrim ((c :: r).take (forceSplitIndex (c :: r)))).length
                ≤ ((c :: r).take (forceSplitIndex (c :: r))).length :=
                  jsTrim_length_le ((c :: r).take (forceSplitIndex (c :: r)))
              _ ≤ forceSplitIndex (c :: r) := by
                  rw [List.length_take]
                  omega
              _ ≤ 1000 := hbnds.2
          · exact hasDblNl_jsTrim (hasDblNl_take _ hdb)
          · exact jsTrim_head_not_ws hpne
          · exact jsTrim_last_not_ws hpne
        refine ih _ _ ?_ ?_ ?_ x hx
        · intro y hy
          rcases List.mem_append.mp hy with hy | hy
          · exact hacc y hy
          · rw [List.mem_singleton] at hy
            rw [hy]
            exact hpiece
        · exact hasDblNl_jsTrim (hasDblNl_drop _ hdb)
        · intro hne2
          exact ⟨jsTrim_head_not_ws hne2, jsTrim_last_not_ws hne2⟩

theorem foldl_sanitizeStep_good :
    ∀ (paras : List Str) (acc : List Str),
      (∀ x ∈ acc, goodPiece x) →
      (∀ p ∈ paras, hasDblNl p = false) →
      ∀ x ∈ paras.foldl sanitizeStep acc, goodPiece x := by
  intro paras
  induction paras with
  | nil =>
    intro acc hacc _ x hx
    rw [List.foldl_nil] at hx
    exact hacc x hx
  | cons p ps ih =>
    intro acc hacc hps x hx
    rw [List.foldl_cons] at hx
    refine ih _ ?_ (fun q hq => hps q (List.mem_cons_of_mem _ hq)) x hx
    intro y hy
    have htdb : hasDblNl (jsTrim p) = false :=
      hasDblNl_jsTrim (hps p (List.mem_cons_self _ _))
    simp only [sanitizeStep] at hy
    by_cases h1 : (jsTrim p).isEmpty = true
    · rw [if_pos h1] at hy
      exact hacc y hy
    · rw [if_neg h1] at hy
      have htne : jsTrim p ≠ [] := by
        intro hc
        rw [hc] at h1
        exact h1 rfl
      by_cases h2 : (! (jsTrim p).any isAlnumDe) = true
      · rw [if_pos h2] at hy
        exact hacc y hy
      · rw [if_neg h2] at hy
        by_cases h3 : (jsTrim p).length ≤ 1000
        · rw [if_pos h3] at hy
          rcases List.mem_append.mp hy with hy | hy
          · exact hacc y hy
          · rw [List.mem_singleton] at hy
            rw [hy]
            exact ⟨h3, htne, htdb, jsTrim_head_not_ws htne,
              jsTrim_last_not_ws htne⟩
        · rw [if_neg h3] at hy
          exact forceSplitGo_good _ _ _ hacc htdb
            (fun _ => ⟨jsTrim_head_not_ws htne, jsTrim_last_not_ws htne⟩) y hy

theorem firstDblNlIdx_append :
    ∀ (x : Str) (t : Str), hasDblNl x = false → lastD x 'x' ≠ nlChar →
      firstDblNlIdx (x ++ nlChar :: nlChar :: t) = some x.length := by
  intro x
  induction x with
  | nil =>
    intro t _ _
    rw [List.nil_append, firstDblNlIdx]
    simp
  | cons c x' ih =>
    intro t hdb hlast
    cases x' with
    | nil =>
      have hc : c ≠ nlChar := by simpa [lastD] using hlast
      rw [List.cons_append, List.nil_append, firstDblNlIdx]
      rw [if_neg (by simp [hc])]
      rw [show firstDblNlIdx (nlChar :: nlChar :: t) = some 0 from by
        rw [firstDblNlIdx]; simp]
      rfl
    | cons d x2 =>
      rw [hasDblNl] at hdb
      simp only [Bool.or_eq_false_iff] at hdb
      have hlast2 : lastD (d :: x2) 'x' ≠ nlChar := by
        rw [← lastD_cons c 'x' (by simp : (d : Char) :: x2 ≠ [])]
        exact hlast
      have h2 := ih t hdb.2 hlast2
      rw [List.cons_append] at h2 ⊢
      rw [List.cons_append, firstDblNlIdx]
      rw [if_neg (by rw [hdb.1]; simp)]
      rw [h2]
      rfl

theorem joinParas_cons_cons (y z : Str) (zs : List Str) :
    joinParas (y :: z :: zs) = y ++ nlChar :: nlChar :: joinParas (z :: zs) :=
  rfl

theorem joinParas_ne_nil {y : Str} (hy : y ≠ []) (ps2 : List Str) :
    joinParas (y :: ps2) ≠ [] := by
  cases ps2 with
  | nil => exact hy
  | cons z zs =>
    rw [joinParas_cons_cons]
    cases y with
    | nil => exact absurd rfl hy
    | cons c r => simp

theorem joinParas_headD {y : Str} (hy : y ≠ []) (ps2 : List Str) :
    (joinParas (y :: ps2)).headD 'x' = y.headD 'x' := by
  cases ps2 with
  | nil => rfl
  | cons z zs =>
    rw [joinParas_cons_cons]
    exact headD_append_left _ _ hy

theorem dropWhile_nl_cons (l : Str) :
    (nlChar :: l).dropWhile (fun c => c = nlChar) =
      l.dropWhile (fun c => c = nlChar) := by
  rw [List.dropWhile_cons]
  simp

theorem splitParasGo_joinParas :
    ∀ (ps : List Str) (fuel : Nat), ps ≠ [] →
      (∀ x ∈ ps, goodPiece x) →
      (joinParas ps).length + 1 ≤ fuel →
      splitParasGo fuel (joinParas ps) = ps := by
  intro ps
  induction ps with
  | nil => intro fuel h; exact absurd rfl h
  | cons x ps' ih =>
    intro fuel _ hgood hfuel
    have hx := hgood x (List.mem_cons_self _ _)
    cases ps' with
    | nil =>
      cases fuel with
      | zero => omega
      | succ n =>
        have hJ : joinParas [x] = x := rfl
        rw [hJ] at hfuel ⊢
        rw [splitParasGo, firstDblNlIdx_none hx.2.2.1]
    | cons y ps2 =>
      have hy := hgood y (List.mem_cons_of_mem _ (List.mem_cons_self _ _))
      cases fuel with
      | zero => omega
      | succ n =>
        have hxlast : lastD x 'x' ≠ nlChar := by
          intro hc
          have h5 := hx.2.2.2.2
          rw [hc, isJsWs_nl] at h5
          exact Bool.true_eq_false.mp h5
        rw [joinParas_cons_cons] at hfuel ⊢
        rw [splitParasGo]
        rw [firstDblNlIdx_append x (joinParas (y :: ps2)) hx.2.2.1 hxlast]
        show (x ++ nlChar :: nlChar :: joinParas (y :: ps2)).take x.length ::
            splitParasGo n
              (((x ++ nlChar :: nlChar :: joinParas (y :: ps2)).drop
                x.length).dropWhile (fun c => c = nlChar)) =
          x :: y :: ps2
        rw [List.take_left, List.drop_left]
        rw [dropWhile_nl_cons, dropWhile_nl_cons]
        have hdw : (joinParas (y :: ps2)).dropWhile (fun c => c = nlChar) =
            joinParas (y :: ps2) := by
          cases hJ : joinParas (y :: ps2) with
          | nil => exact absurd hJ (joinParas_ne_nil hy.2.1 ps2)
          | cons j0 jr =>
            rw [List.dropWhile_cons]
            have hj0 : j0 ≠ nlChar := by
              have h1 := joinParas_headD hy.2.1 ps2
              rw [hJ] at h1
              intro hc
              have h2 := hy.2.2.2.1
              rw [← h1] at h2
              rw [show (j0 :: jr).headD 'x' = j0 from rfl] at h2
              rw [hc, isJsWs_nl] at h2
              exact Bool.true_eq_false.mp h2
            simp [hj0]
        rw [hdw]
        congr 1
        refine ih n (by simp) (fun q hq => hgood q (List.mem_cons_of_mem _ hq)) ?_
        rw [List.length_append] at hfuel
        simp only [List.length_cons] at hfuel
        have hxlen : 1 ≤ x.length := by
          cases hxe : x with
          | nil => exact absurd hxe hx.2.1
          | cons c r => simp
        omega

theorem paraBlocks_joinParas_good (paras : List Str)
    (hdb : ∀ p ∈ paras, hasDblNl p = false) :
    ∀ x ∈ paraBlocks (joinParas (paras.foldl sanitizeStep [])), goodPiece x := by
  have hgood := foldl_sanitizeStep_good paras []
    (by intro x hx; simp at hx) hdb
  cases hps : paras.foldl sanitizeStep [] with
  | nil =>
    intro x hx
    rw [show joinParas [] = [] from rfl] at hx
    rw [paraBlocks] at hx
    simp [List.isEmpty] at hx
  | cons p ps2 =>
    intro x hx
    have hall : ∀ q ∈ p :: ps2, goodPiece q := by
      rw [hps] at hgood
      exact hgood
    have hp : goodPiece p := hall p (List.mem_cons_self _ _)
    have hJne : joinParas (p :: ps2) ≠ [] := joinParas_ne_nil hp.2.1 ps2
    have hemp : (joinParas (p :: ps2)).isEmpty = false := by
      cases hJ : joinParas (p :: ps2) with
      | nil => exact absurd hJ hJne
      | cons a b => rfl
    rw [paraBlocks, hemp] at hx
    rw [if_neg Bool.false_ne_true] at hx
    rw [splitParasGo_joinParas (p :: ps2) _ (by simp) hall (Nat.le_refl _)] at hx
    exact hall x hx

theorem sanitize_paraBlocks_good (nfc : Str → Str) (text : Str) :
    ∀ x ∈ paraBlocks (sanitizeTextContent nfc text), goodPiece x := by
  rw [sanitizeTextContent]
  by_cases htext : text.isEmpty = true
  · rw [if_pos htext]
    intro x hx
    rw [paraBlocks] at hx
    simp [List.isEmpty] at hx
  · rw [if_neg htext]
    intro x hx
    exact paraBlocks_joinParas_good _
      (splitParasGo_pairFree _ _ (Nat.le_refl _)) x hx

/-! ## Lemmas about the meditation scanner -/

theorem enumFrom_snd_mem {α : Type} :
    ∀ (n : Nat) (xs : List α) (p : Nat × α), p ∈ xs.enumFrom n → p.2 ∈ xs := by
  intro n xs
  induction xs generalizing n with
  | nil => intro p hp; simp [List.enumFrom] at hp
  | cons x xs ih =>
    intro p hp
    rw [List.enumFrom] at hp
    rcases List.mem_cons.mp hp with hp | hp
    · rw [hp]
      exact List.mem_cons_self _ _
    · exact List.mem_cons_of_mem _ (ih _ _ hp)

theorem scanLine_none {line : Str} (i : Nat)
    (h : directiveLine line = false) : scanLine i line = none := by
  simp only [directiveLine] at h
  rw [scanLine]
  by_cases ht : (jsTrim line).isEmpty = true
  · rw [if_pos ht]
  · rw [if_neg ht]
    have hd : ((primaryMatch (jsTrim line)).isSome ||
        sentencePatternTest (jsTrim line) || extendedTest (jsTrim line) ||
        stageDirectionTest (jsTrim line)) = false := by
      by_contra hcon
      rw [Bool.not_eq_false] at hcon
      rw [hcon] at h
      simp at h
      exact ht (by rw [h]; rfl)
    cases hpm : primaryMatch (jsTrim line) with
    | some v =>
      rw [hpm] at hd
      simp at hd
    | none =>
      rw [hpm] at hd
      simp only [Option.isSome_none, Bool.false_or] at hd
      show (if sentencePatternTest (jsTrim line) || extendedTest (jsTrim line)
          || stageDirectionTest (jsTrim line) then _ else none) = none
      rw [if_neg (by rw [hd]; simp)]

theorem scanForExplicitPauses_eq_nil {text : Str}
    (h : ∀ line ∈ splitNl text, directiveLine line = false) :
    scanForExplicitPauses text = [] := by
  rw [scanForExplicitPauses]
  by_cases htext : text = []
  · rw [if_pos htext]
  · rw [if_neg htext]
    rw [List.filterMap_eq_nil_iff]
    intro p hp
    exact scanLine_none p.1 (h p.2 (enumFrom_snd_mem 0 _ p hp))

/-! ## The claims -/

/-- C2 (corrected): chunking is lossless only up to line-ending
normalisation — for every string and every target size `n ≥ 1`, the chunks of
`smartSplitText` concatenate to the input with `\r\n` and `\r` replaced by
`\n` (the unrestricted round trip is refuted by
`chunk_concat_cr_counterexample`). -/
theorem chunk_concat_normalized (s : Str) (n : Nat) (hn : 1 ≤ n) :
    concatChunks (smartSplitText s n) = normalizeLineEndings s :=
  smartSplitText_concat s n hn

/-- Witness for C2 at a concrete input. -/
theorem chunk_concat_normalized_witness :
    1 ≤ 5 ∧
    concatChunks (smartSplitText "Guten Morgen\r\nWelt".toList 5) =
      normalizeLineEndings "Guten Morgen\r\nWelt".toList :=
  ⟨by decide, chunk_concat_normalized "Guten Morgen\r\nWelt".toList 5 (by decide)⟩

/-- Counterexample for C2 as stated: a lone carriage return is rewritten, so
concatenation does not reproduce the input. -/
theorem chunk_concat_cr_counterexample :
    concatChunks (smartSplitText ('a' :: crChar :: 'b' :: []) 10) ≠
      ('a' :: crChar :: 'b' :: []) := by decide

/-- Witness for C1 at a concrete input: a meditation chunk with a directive
line round-trips exactly. -/
theorem protect_restore_of_clean_witness :
    (occursIn "Atme ein.\nPAUSE 3 Sekunden\nAtme aus.".toList phPrefix = false ∧
     hasDollarEscape "Atme ein.\nPAUSE 3 Sekunden\nAtme aus.".toList = false) ∧
    restoreStageDirections
        (protectStageDirections "Atme ein.\nPAUSE 3 Sekunden\nAtme aus.".toList).1
        (protectStageDirections "Atme ein.\nPAUSE 3 Sekunden\nAtme aus.".toList).2 =
      "Atme ein.\nPAUSE 3 Sekunden\nAtme aus.".toList :=
  ⟨⟨by decide, by decide⟩,
    protect_restore_of_clean "Atme ein.\nPAUSE 3 Sekunden\nAtme aus.".toList
      (by decide) (by decide)⟩

/-- Counterexample for C1 as stated: an input that already contains a
placeholder collides with the numbering and the round trip swaps the two
lines. -/
theorem protect_restore_counterexample :
    restoreStageDirections
        (protectStageDirections
          "[[PROTECTED_STAGE_DIRECTION_0]]\nPAUSE".toList).1
        (protectStageDirections
          "[[PROTECTED_STAGE_DIRECTION_0]]\nPAUSE".toList).2 ≠
      "[[PROTECTED_STAGE_DIRECTION_0]]\nPAUSE".toList := by decide

/-- C3 (code bug): the abbreviation guard of `injectSentencePauses` is dead —
its regex `\b<abbr>$` is tested against `beforePunctuation + punctuation`,
whose last character is the punctuation mark, so it can never match; a
sentence ending in the listed abbreviation `Dr.` receives a pause tag right
after the abbreviation period. -/
theorem abbreviation_pause_inserted :
    injectSentencePauses "Wir danken Dr. Müller".toList 8 =
      "Wir danken Dr. [PAUSE 0.8s] Müller".toList := by decide

/-- C4 (confirmed): scanning the line `PAUSE für 14 reale Minuten einatmen`
yields exactly one detected pause of 840 seconds (8400 tenths) on line 1, and
applying it appends ` [PAUSE 840s]` to that line, leaving the text otherwise
unchanged. -/
theorem scan_apply_840 :
    (scanForExplicitPauses "PAUSE für 14 reale Minuten einatmen".toList).map
        (fun p => (p.lineNumber, p.durationTenths)) = [(1, 8400)] ∧
    applyMeditationPauses "PAUSE für 14 reale Minuten einatmen".toList
        (scanForExplicitPauses "PAUSE für 14 reale Minuten einatmen".toList) =
      "PAUSE für 14 reale Minuten einatmen [PAUSE 840s]".toList := by decide

/-- C5 (code bug): the duplicate guard of `injectParagraphPauses` holds on the
spec's scenario (an existing `[PAUSE 2s]` within the ±20-character search
radius suppresses re-insertion), but idempotence fails in general: a tag
whose formatted duration exceeds the radius (here 10¹¹ s, a 23-character tag)
is not seen by `hasExistingPauseTag`, so a second run inserts a duplicate. -/
theorem pause_tag_duplicated :
    injectParagraphPauses "End of para.\n\n [PAUSE 2s] Next para.".toList 20 =
      "End of para.\n\n [PAUSE 2s] Next para.".toList ∧
    injectParagraphPauses
        (injectParagraphPauses ('A' :: nlChar :: nlChar :: 'B' :: [])
          (10 ^ 12)) (10 ^ 12) ≠
      injectParagraphPauses ('A' :: nlChar :: nlChar :: 'B' :: [])
        (10 ^ 12) := by decide

/-- C6 (corrected): every blank-line-separated block of the sanitizer's
output is at most 1000 characters long and non-empty, for every input and
every NFC normalisation; the further claim that no block is purely symbolic
is refuted by `sanitize_symbolic_counterexample`. -/
theorem sanitize_paragraph_bound (nfc : Str → Str) (text : Str) :
    ∀ b ∈ paraBlocks (sanitizeTextContent nfc text),
      b.length ≤ 1000 ∧ b ≠ [] := by
  intro b hb
  have h := sanitize_paraBlocks_good nfc text b hb
  exact ⟨h.1, h.2.1⟩

/-- Witness for C6 at a concrete input. -/
theorem sanitize_paragraph_bound_witness :
    "Hallo".toList ∈ paraBlocks (sanitizeTextContent id "Hallo".toList) ∧
    ("Hallo".toList.length ≤ 1000 ∧ "Hallo".toList ≠ []) :=
  ⟨by decide,
    sanitize_paragraph_bound id "Hallo".toList "Hallo".toList (by decide)⟩

theorem symbolicEx_ne_nil : symbolicEx.isEmpty = false := rfl

theorem symbolicEx_len : symbolicEx.length = 1002 := by
  rw [symbolicEx, List.length_append, List.length_replicate]
  rfl

theorem symbolicEx_nonempty : symbolicEx ≠ [] := by
  intro hc
  have h := congrArg List.length hc
  rw [symbolicEx_len] at h
  simp at h

theorem mem_symbolicEx {c : Char} (h : c ∈ symbolicEx) :
    c = '#' ∨ c = ' ' ∨ c = 'a' := by
  rw [symbolicEx] at h
  rcases List.mem_append.mp h with h | h
  · exact Or.inl (List.eq_of_mem_replicate h)
  · rcases List.mem_cons.mp h with h | h
    · exact Or.inr (Or.inl h)
    · rcases List.mem_cons.mp h with h | h
      · exact Or.inr (Or.inr h)
      · simp at h

theorem symbolicEx_no_nl : nlChar ∉ symbolicEx := by
  intro hmem
  rcases mem_symbolicEx hmem with h | h | h <;> exact absurd h (by decide)

theorem symbolicEx_no_cr : crChar ∉ symbolicEx := by
  intro hmem
  rcases mem_symbolicEx hmem with h | h | h <;> exact absurd h (by decide)

theorem symbolicEx_headD : symbolicEx.headD 'x' = '#' := rfl

theorem symbolicEx_lastD : lastD symbolicEx 'x' = 'a' := by
  rw [symbolicEx, lastD, List.reverse_append]
  rfl

theorem dropWhile_eq_self_of_head {p : Char → Bool} {X : Str}
    (hne : X ≠ []) (h : p (X.headD 'x') = false) : X.dropWhile p = X := by
  cases X with
  | nil => exact absurd rfl hne
  | cons c r =>
    rw [List.dropWhile_cons]
    rw [show (c :: r).headD 'x' = c from rfl] at h
    rw [h]
    simp

theorem jsTrim_eq_self {s : Str} (hne : s ≠ [])
    (h1 : isJsWs (s.headD 'x') = false)
    (h2 : isJsWs (lastD s 'x') = false) : jsTrim s = s := by
  rw [jsTrim, dropWhile_eq_self_of_head hne h1,
    dropWhile_eq_self_of_head (by simpa using hne) h2, List.reverse_reverse]

theorem symbolicEx_trim_self : jsTrim symbolicEx = symbolicEx :=
  jsTrim_eq_self symbolicEx_nonempty
    (by rw [symbolicEx_headD]; decide) (by rw [symbolicEx_lastD]; decide)

theorem any_replicate_false {p : Char → Bool} {a : Char} (h : p a = false) :
    ∀ n, (List.replicate n a).any p = false := by
  intro n
  induction n with
  | zero => rfl
  | succ m ih =>
    rw [List.replicate_succ, List.any_cons, h, ih]
    rfl

theorem all_replicate_true {p : Char → Bool} {a : Char} (h : p a = true) :
    ∀ n, (List.replicate n a).all p = true := by
  intro n
  induction n with
  | zero => rfl
  | succ m ih =>
    rw [List.replicate_succ, List.all_cons, h, ih]
    rfl

theorem filter_replicate_keep {p : Char → Bool} {a : Char} (h : p a = true) :
    ∀ n, (List.replicate n a).filter p = List.replicate n a := by
  intro n
  induction n with
  | zero => rfl
  | succ m ih =>
    rw [List.replicate_succ, List.filter_cons, ih]
    simp [h]

theorem symbolicEx_any_alnum : symbolicEx.any isAlnumDe = true := by
  rw [symbolicEx, List.any_append,
    any_replicate_false (show isAlnumDe '#' = false from by decide) 1000]
  rfl

theorem symbolicEx_map_invisible :
    symbolicEx.map (fun c => if isInvisibleCh c then ' ' else c) =
      symbolicEx := by
  rw [symbolicEx, List.map_append, List.map_replicate]
  rfl

theorem symbolicEx_normalize : normalizeLineEndings symbolicEx = symbolicEx :=
  normalizeLineEndings_of_no_cr symbolicEx symbolicEx_no_cr

theorem hyphenJoinGo_hash_front :
    ∀ (n fuel : Nat) (t : Str),
      hyphenJoinGo (n + fuel) (List.replicate n '#' ++ t) =
        List.replicate n '#' ++ hyphenJoinGo fuel t := by
  intro n
  induction n with
  | zero => intro fuel t; simp
  | succ m ih =>
    intro fuel t
    rw [List.replicate_succ, List.cons_append]
    rw [show m + 1 + fuel = (m + fuel) + 1 from by omega]
    rw [hyphenJoinGo]
    rw [if_neg (by decide)]
    rw [ih]
    rw [List.cons_append]

theorem symbolicEx_hyphen :
    hyphenJoinGo (symbolicEx.length + 1) symbolicEx = symbolicEx := by
  rw [symbolicEx_len, symbolicEx]
  rw [show (1002 : Nat) + 1 = 1000 + 3 from rfl]
  rw [hyphenJoinGo_hash_front]
  rw [show hyphenJoinGo 3 (' ' :: 'a' :: []) = (' ' :: 'a' :: []) from by
    decide]

theorem splitNl_of_no_nl : ∀ {s : Str}, nlChar ∉ s → splitNl s = [s] := by
  intro s
  induction s with
  | nil => intro _; rfl
  | cons c r ih =>
    intro h
    have hc : ¬ c = nlChar := fun hic => h (hic ▸ List.mem_cons_self c r)
    simp only [splitNl]
    rw [ih (fun hm => h (List.mem_cons_of_mem _ hm))]
    rw [if_neg hc]
    rfl

theorem symbolicEx_keep : ghostLineKeep symbolicEx = true := by
  simp only [ghostLineKeep, symbolicEx_trim_self]
  rw [symbolicEx_ne_nil]
  rw [if_neg Bool.false_ne_true]
  rw [show seitePageLine symbolicEx = false from by decide]
  rw [if_neg Bool.false_ne_true]
  exact symbolicEx_any_alnum

theorem symbolicEx_ghost :
    joinNl ((splitNl symbolicEx).filter ghostLineKeep) = symbolicEx := by
  rw [splitNl_of_no_nl symbolicEx_no_nl, List.filter_cons, symbolicEx_keep]
  simp only [if_pos rfl, List.filter_nil]
  rfl

theorem symbolicEx_ctrl :
    symbolicEx.filter (fun c => ! isCtrlCh c) = symbolicEx := by
  rw [symbolicEx, List.filter_append,
    filter_replicate_keep (show (! isCtrlCh '#') = true from by decide) 1000]
  rfl

theorem collapseSpTab_hash_front :
    ∀ (n fuel : Nat) (t : Str),
      collapseSpTab (n + fuel) (List.replicate n '#' ++ t) =
        List.replicate n '#' ++ collapseSpTab fuel t := by
  intro n
  induction n with
  | zero => intro fuel t; simp
  | succ m ih =>
    intro fuel t
    rw [List.replicate_succ, List.cons_append]
    rw [show m + 1 + fuel = (m + fuel) + 1 from by omega]
    rw [collapseSpTab]
    rw [if_neg (by decide)]
    rw [ih]
    rw [List.cons_append]

theorem symbolicEx_spaces :
    collapseSpTab (symbolicEx.length + 1) symbolicEx = symbolicEx := by
  rw [symbolicEx_len, symbolicEx]
  rw [show (1002 : Nat) + 1 = 1000 + 3 from rfl]
  rw [collapseSpTab_hash_front]
  rw [show collapseSpTab 3 (' ' :: 'a' :: []) = (' ' :: 'a' :: []) from by
    decide]

theorem trimEndSpTab_eq_self {l : Str} (hne : l ≠ [])
    (h : isSpTab (lastD l 'x') = false) : trimEndSpTab l = l := by
  rw [trimEndSpTab, dropWhile_eq_self_of_head (by simpa using hne) h,
    List.reverse_reverse]

theorem symbolicEx_trimEnd : mapLines trimEndSpTab symbolicEx = symbolicEx := by
  rw [mapLines, splitNl_of_no_nl symbolicEx_no_nl, List.map_cons, List.map_nil]
  rw [trimEndSpTab_eq_self symbolicEx_nonempty
    (by rw [symbolicEx_lastD]; decide)]
  rfl

theorem hasDblNl_of_no_nl : ∀ {s : Str}, nlChar ∉ s → hasDblNl s = false := by
  intro s
  induction s with
  | nil => intro _; rfl
  | cons c r ih =>
    intro h
    cases r with
    | nil => rfl
    | cons b r2 =>
      rw [hasDblNl]
      have hc : ¬ c = nlChar := fun hic => h (hic ▸ List.mem_cons_self c _)
      rw [show (decide (c = nlChar) && decide (b = nlChar)) = false from by
        rw [decide_eq_false hc]; rfl]
      rw [ih (fun hm => h (List.mem_cons_of_mem _ hm))]
      rfl

theorem symbolicEx_paras :
    splitParasGo (symbolicEx.length + 1) symbolicEx = [symbolicEx] := by
  rw [splitParasGo]
  rw [firstDblNlIdx_none (hasDblNl_of_no_nl symbolicEx_no_nl)]

theorem headD_replicate_hash :
    (List.replicate 1000 '#').headD 'x' = '#' := rfl

theorem lastD_replicate_hash : lastD (List.replicate 1000 '#') 'x' = '#' := by
  rw [lastD, List.reverse_replicate]
  rfl

theorem replicate_hash_nonempty : List.replicate 1000 '#' ≠ [] := by
  intro hc
  have h := congrArg List.length hc
  rw [List.length_replicate] at h
  simp at h

theorem replicate_hash_trim :
    jsTrim (List.replicate 1000 '#') = List.replicate 1000 '#' :=
  jsTrim_eq_self replicate_hash_nonempty
    (by rw [headD_replicate_hash]; decide)
    (by rw [lastD_replicate_hash]; decide)

theorem getD_replicate_hash :
    ∀ (n i : Nat),
      (List.replicate n '#').getD i 'x' = if i < n then '#' else 'x' := by
  intro n
  induction n with
  | zero => intro i; simp
  | succ m ih =>
    intro i
    rw [List.replicate_succ]
    cases i with
    | zero => simp
    | succ j =>
      rw [List.getD_cons_succ, ih]
      simp [Nat.succ_lt_succ_iff]

theorem firstPairIdx_none_of_all {p : Char → Bool} :
    ∀ {w : Str}, (∀ x ∈ w, p x = false) → firstPairIdx p w = none := by
  intro w
  induction w with
  | nil => intro _; rfl
  | cons a r ih =>
    intro h
    cases r with
    | nil => rfl
    | cons b r2 =>
      rw [firstPairIdx]
      rw [if_neg (by rw [h a (List.mem_cons_self _ _)]; simp)]
      rw [ih (fun x hx => h x (List.mem_cons_of_mem _ hx))]
      rfl

theorem lastIdxSuchThat_none_of_all {p : Nat → Bool} (h : ∀ i, p i = false) :
    ∀ m, lastIdxSuchThat p m = none := by
  intro m
  induction m with
  | zero =>
    rw [lastIdxSuchThat, h 0]
    rfl
  | succ n ih =>
    rw [lastIdxSuchThat, h (n + 1)]
    simpa using ih

theorem symbolicEx_window :
    jsSubstring symbolicEx 700 1000 = List.replicate 300 '#' := by
  simp only [jsSubstring, symbolicEx_len]
  norm_num
  rw [symbolicEx]
  rw [show List.replicate 1000 '#' =
      List.replicate 700 '#' ++ List.replicate 300 '#' from by
    rw [← List.replicate_add]]
  rw [List.append_assoc]
  rw [List.drop_left' (List.length_replicate 700 '#')]
  rw [List.take_left' (List.length_replicate 300 '#')]

theorem symbolicEx_forceSplitIndex : forceSplitIndex symbolicEx = 1000 := by
  have h1 : firstPairIdx (fun c => c = '.' || c = '!' || c = '?')
      (List.replicate 300 '#') = none :=
    firstPairIdx_none_of_all (fun x hx => by
      rw [List.eq_of_mem_replicate hx]; decide)
  have h2 : firstPairIdx (fun c => c = ';' || c = ':')
      (List.replicate 300 '#') = none :=
    firstPairIdx_none_of_all (fun x hx => by
      rw [List.eq_of_mem_replicate hx]; decide)
  have h3 : lastIdxSuchThat
      (fun i => (List.replicate 300 '#').getD i 'x' = ' ')
      ((List.replicate 300 '#').length - 1) = none :=
    lastIdxSuchThat_none_of_all (fun i => by
      rw [getD_replicate_hash]
      by_cases hi : i < 300 <;> simp [hi]) _
  simp only [forceSplitIndex, symbolicEx_window, h1, h2, h3]
  rfl

theorem symbolicEx_take_1000 :
    symbolicEx.take 1000 = List.replicate 1000 '#' := by
  rw [symbolicEx, List.take_left' (List.length_replicate 1000 '#')]

theorem symbolicEx_drop_1000 : symbolicEx.drop 1000 = (' ' :: 'a' :: []) := by
  rw [symbolicEx, List.drop_left' (List.length_replicate 1000 '#')]

theorem forceSplitGo_step {fuel : Nat} {remaining : Str} {acc : List Str}
    (hne : remaining.isEmpty = false) (hlen : ¬ remaining.length ≤ 1000) :
    forceSplitGo (fuel + 1) remaining acc =
      forceSplitGo fuel (jsTrim (remaining.drop (forceSplitIndex remaining)))
        (acc ++ [jsTrim (remaining.take (forceSplitIndex remaining))]) := by
  rw [forceSplitGo]
  rw [if_neg (by rw [hne]; exact Bool.false_ne_true)]
  rw [if_neg hlen]

theorem forceSplitGo_last {fuel : Nat} {remaining : Str} {acc : List Str}
    (hne : remaining.isEmpty = false) (hlen : remaining.length ≤ 1000) :
    forceSplitGo (fuel + 1) remaining acc = acc ++ [remaining] := by
  rw [forceSplitGo]
  rw [if_neg (by rw [hne]; exact Bool.false_ne_true)]
  rw [if_pos hlen]

theorem symbolicEx_rebuild :
    List.foldl sanitizeStep [] [symbolicEx] =
      [List.replicate 1000 '#', ('a' :: [])] := by
  rw [List.foldl_cons, List.foldl_nil]
  simp only [sanitizeStep, symbolicEx_trim_self]
  rw [symbolicEx_ne_nil]
  rw [if_neg Bool.false_ne_true]
  rw [show (! symbolicEx.any isAlnumDe) = false from by
    rw [symbolicEx_any_alnum]; rfl]
  rw [if_neg Bool.false_ne_true]
  rw [if_neg (show ¬ symbolicEx.length ≤ 1000 from by
    rw [symbolicEx_len]; omega)]
  rw [forceSplitGo_step symbolicEx_ne_nil
    (by rw [symbolicEx_len]; omega)]
  rw [symbolicEx_forceSplitIndex, symbolicEx_take_1000, symbolicEx_drop_1000]
  rw [replicate_hash_trim]
  rw [show jsTrim (' ' :: 'a' :: []) = ('a' :: []) from by decide]
  rw [symbolicEx_len]
  rw [forceSplitGo_last (show ('a' :: ([] : Str)).isEmpty = false from rfl)
    (by simp)]
  simp

/-- Evaluation of the sanitizer on `symbolicEx`, staged pass by pass. -/
theorem sanitize_symbolicEx_eval :
    sanitizeTextContent id symbolicEx =
      List.replicate 1000 '#' ++ (nlChar :: nlChar :: 'a' :: []) := by
  rw [sanitizeTextContent]
  rw [if_neg (by rw [symbolicEx_ne_nil]; exact Bool.false_ne_true)]
  simp only [id_eq]
  rw [symbolicEx_map_invisible, symbolicEx_normalize, symbolicEx_hyphen,
    symbolicEx_ghost, symbolicEx_ctrl, symbolicEx_spaces, symbolicEx_trimEnd,
    symbolicEx_paras, symbolicEx_rebuild]
  rw [joinParas_cons_cons]
  congr 1

theorem goodPiece_replicate_hash : goodPiece (List.replicate 1000 '#') := by
  refine ⟨by rw [List.length_replicate], replicate_hash_nonempty,
    hasDblNl_of_no_nl ?_, ?_, ?_⟩
  · intro hmem
    exact absurd (List.eq_of_mem_replicate hmem) (by decide)
  · rw [headD_replicate_hash]
    decide
  · rw [lastD_replicate_hash]
    decide

theorem goodPiece_single_a : goodPiece ('a' :: []) := by
  refine ⟨by simp, by simp, rfl, by decide, ?_⟩
  rw [lastD]
  decide

/-- Counterexample for the purely-symbolic part of C6: force-splitting a
1002-character paragraph whose first 1000 characters are `#` emits a block
with no alphanumeric character. -/
theorem sanitize_symbolic_counterexample :
    List.replicate 1000 '#' ∈ paraBlocks (sanitizeTextContent id symbolicEx) ∧
    (List.replicate 1000 '#').all (fun c => ! isAlnumDe c) = true := by
  constructor
  · rw [sanitize_symbolicEx_eval]
    have hJ : List.replicate 1000 '#' ++ (nlChar :: nlChar :: 'a' :: []) =
        joinParas [List.replicate 1000 '#', ('a' :: [])] := by
      rw [joinParas_cons_cons]
      congr 1
    rw [hJ]
    have hall : ∀ q ∈ [List.replicate 1000 '#', ('a' :: ([] : Str))],
        goodPiece q := by
      intro q hq
      rcases List.mem_cons.mp hq with hq | hq
      · rw [hq]
        exact goodPiece_replicate_hash
      · rcases List.mem_cons.mp hq with hq | hq
        · rw [hq]
          exact goodPiece_single_a
        · simp at hq
    have hne : (joinParas [List.replicate 1000 '#',
        ('a' :: ([] : Str))]).isEmpty = false := by
      cases hJ2 : joinParas [List.replicate 1000 '#', ('a' :: ([] : Str))] with
      | nil => exact absurd hJ2 (joinParas_ne_nil replicate_hash_nonempty _)
      | cons x xs => rfl
    rw [paraBlocks, hne, if_neg Bool.false_ne_true]
    rw [splitParasGo_joinParas _ _ (by simp) hall (Nat.le_refl _)]
    exact List.mem_cons_self _ _
  · rw [all_replicate_true (show (! isAlnumDe '#') = true from by decide) 1000]

/-- C7 (corrected): when both delegated attempts reject or time out and the
abort signal is not set, the watchdog always terminates with the
deterministic offline fallback of the original chunk — a chunk-level failure
of the delegated path never aborts the run.  The non-emptiness part of the
claim is refuted by `watchdog_empty_fallback_counterexample`. -/
theorem watchdog_fallback_ok (chunk : Str) (options : CleaningOptions)
    (e1 e2 : Str) :
    processChunkWithWatchdog chunk options (Except.error e1) (Except.error e2)
      false false =
      WatchdogOutcome.ok (attemptOfflineFallback chunk options) := rfl

/-- Counterexample for the non-emptiness part of C7: the non-empty chunk `5`
is a standalone page number, which the offline cleaner removes entirely, so
the watchdog returns the empty string. -/
theorem watchdog_empty_fallback_counterexample :
    ('5' :: []) ≠ ([] : Str) ∧
    processChunkWithWatchdog ('5' :: [])
        ⟨ChapterStyle.remove, ListStyle.prose, HyphenationStyle.join,
          true, true, true, true, true, true, [],
          ProcessingMode.standard, none⟩
        (Except.error "Timeout: API did not respond in time (130s).".toList)
        (Except.error "Timeout: API did not respond in time (130s).".toList)
        false false =
      WatchdogOutcome.ok [] := by decide

/-- C8 (confirmed): with `processingMode = meditation` the safety check of
`handleStartCleaning` forces the effective `chapterStyle` to `keep`, and the
offline cleaner's chapter-removal pass is disabled regardless of the
`chapterStyle` the options were constructed with. -/
theorem meditation_chapter_lock (options : CleaningOptions) (c : ChapterStyle)
    (rawText : Str)
    (h : options.processingMode = ProcessingMode.meditation) :
    (mkSafeOptions options).chapterStyle = ChapterStyle.keep ∧
    cleanTextOffline rawText { options with chapterStyle := c } =
      cleanTextOffline rawText options := by
  constructor
  · simp [mkSafeOptions, h]
  · simp only [cleanTextOffline, h]
    simp

/-- Witness for C8 at a concrete option record constructed with
`chapterStyle = remove`. -/
theorem meditation_chapter_lock_witness :
    (CleaningOptions.processingMode
        ⟨ChapterStyle.remove, ListStyle.keep, HyphenationStyle.keep,
          false, false, false, false, true, true, [],
          ProcessingMode.meditation, none⟩ = ProcessingMode.meditation) ∧
    ((mkSafeOptions
        ⟨ChapterStyle.remove, ListStyle.keep, HyphenationStyle.keep,
          false, false, false, false, true, true, [],
          ProcessingMode.meditation, none⟩).chapterStyle = ChapterStyle.keep ∧
      cleanTextOffline "Kapitel 1 Beginn".toList
          { (⟨ChapterStyle.remove, ListStyle.keep, HyphenationStyle.keep,
              false, false, false, false, true, true, [],
              ProcessingMode.meditation, none⟩ : CleaningOptions) with
            chapterStyle := ChapterStyle.keep } =
        cleanTextOffline "Kapitel 1 Beginn".toList
          ⟨ChapterStyle.remove, ListStyle.keep, HyphenationStyle.keep,
            false, false, false, false, true, true, [],
            ProcessingMode.meditation, none⟩) :=
  ⟨rfl,
    meditation_chapter_lock
      ⟨ChapterStyle.remove, ListStyle.keep, HyphenationStyle.keep,
        false, false, false, false, true, true, [],
        ProcessingMode.meditation, none⟩
      ChapterStyle.keep "Kapitel 1 Beginn".toList rfl⟩

/-- C9 (confirmed): when no line of the sanitized text matches any directive
pattern, the scanner returns the empty list, the validator reports the
zero-pauses warning, and the meditation branch ends the run in the `ERROR`
state with the hard-coded "Keine Pausen gefunden" message — the raw text and
the review flag are untouched, so the caller can reconfigure and retry. -/
theorem meditation_empty_scan_terminal (st : AppModelState) (text : Str)
    (h : ∀ line ∈ splitNl text, directiveLine line = false) :
    scanForExplicitPauses text = [] ∧
    validateMeditationPauses (scanForExplicitPauses text) = [noPausesWarning] ∧
    meditationScanStep st text =
      { st with
          appState := AppState.ERROR
          errorMessage := noPausesErrorMessage } ∧
    (meditationScanStep st text).rawText = st.rawText ∧
    (meditationScanStep st text).isReviewingPauses = st.isReviewingPauses := by
  have hscan := scanForExplicitPauses_eq_nil h
  have hstep : meditationScanStep st text =
      { st with
          appState := AppState.ERROR
          errorMessage := noPausesErrorMessage } := by
    rw [meditationScanStep]
    simp only [hscan]
    rfl
  refine ⟨hscan, ?_, hstep, ?_, ?_⟩
  · rw [hscan]
    rfl
  · rw [hstep]
  · rw [hstep]

/-- Witness for C9 at a concrete state and directive-free text. -/
theorem meditation_empty_scan_terminal_witness :
    (∀ line ∈ splitNl "Atme tief ein".toList, directiveLine line = false) ∧
    meditationScanStep
        ⟨AppState.CLEANING, "Rohtext".toList, [], [], [], false⟩
        "Atme tief ein".toList =
      ⟨AppState.ERROR, "Rohtext".toList, [], noPausesErrorMessage, [],
        false⟩ :=
  ⟨by decide,
    (meditation_empty_scan_terminal
      ⟨AppState.CLEANING, "Rohtext".toList, [], [], [], false⟩
      "Atme tief ein".toList (by decide)).2.2.1⟩

/-- C10 (confirmed): for every input without carriage returns and every
target size `n ≥ 1`, the chunks of `smartSplitText` concatenate back to the
input exactly. -/
theorem chunk_concat_no_cr (s : Str) (n : Nat) (hn : 1 ≤ n)
    (hcr : crChar ∉ s) : concatChunks (smartSplitText s n) = s := by
  rw [smartSplitText_concat s n hn, normalizeLineEndings_of_no_cr s hcr]

/-- Witness for C10 at a concrete input. -/
theorem chunk_concat_no_cr_witness :
    (1 ≤ 4 ∧ crChar ∉ "Guten Tag\nliebe Welt".toList) ∧
    concatChunks (smartSplitText "Guten Tag\nliebe Welt".toList 4) =
      "Guten Tag\nliebe Welt".toList :=
  ⟨⟨by decide, by decide⟩,
    chunk_concat_no_cr "Guten Tag\nliebe Welt".toList 4 (by decide)
      (by decide)⟩

end TA
